import Mathlib

/-!
# recx: reflected-parameter scanner

A shallow embedding of `main.go` and the properties of its crawler, its
reflection prober and its context guard.

Conventions of the embedding:

* a Go `string` is the list of its bytes (`Str`); ASCII literals are written
  with `ascii`;
* the standard library functions `strings.Index`, `strings.Contains`,
  `strings.HasSuffix`, `strings.Join` and the ASCII part of `strings.ToLower`
  are written out; `url.Parse`, the HTML tokenizer, the HTTP round trip and
  the random source are parameters of the functions that use them;
* a value of type `Option` is `none` where the Go code returns an error (for
  `fetchURL` and `url.Parse`), panics (for a slice expression) or does not
  return (for `crawlPage`).
-/

namespace Recx

/-! ## Strings -/

/-- A Go string: a sequence of bytes. -/
abbrev Str := List Nat

/-- The bytes of an ASCII literal. -/
def ascii (s : String) : Str := s.toList.map Char.toNat

/-- Go `strings.Index(s, substr)`: the index of the first occurrence of
`substr` in `s`, or `-1` when there is none. -/
def Index : Str → Str → Int
  | [], substr => if substr.isPrefixOf [] then 0 else -1
  | c :: s, substr =>
    if substr.isPrefixOf (c :: s) then 0
    else
      let r := Index s substr
      if r < 0 then -1 else r + 1

/-- Go `strings.Contains(s, substr)`, which is `Index(s, substr) >= 0`. -/
def Contains (s substr : Str) : Bool := decide (0 ≤ Index s substr)

/-- Go `strings.HasSuffix(s, suffix)`. -/
def HasSuffix (s suffix : Str) : Bool := suffix.isSuffixOf s

/-- Go `strings.Join(elems, "")`. -/
def Join (elems : List Str) : Str := elems.flatten

/-- The ASCII lower-casing of one byte. -/
def lowerByte (b : Nat) : Nat := if 65 ≤ b ∧ b ≤ 90 then b + 32 else b

/-- Go `strings.ToLower(s)`: a string of ASCII bytes only is lower-cased byte
by byte; any other string goes through the Unicode mapping
`Map(unicode.ToLower, s)`, the parameter `unicodeLower`. -/
def ToLower (unicodeLower : Str → Str) (s : Str) : Str :=
  if s.all (fun b => decide (b < 128)) then s.map lowerByte else unicodeLower s

/-- The slice expression `s[lo:hi]`; `none` is the run-time panic for bounds
out of range. -/
def slice (s : Str) (lo hi : Int) : Option Str :=
  if 0 ≤ lo ∧ lo ≤ hi ∧ hi ≤ (s.length : Int) then
    some ((s.drop lo.toNat).take (hi - lo).toNat)
  else none

/-! ## Constants -/

def maxWorkers : Nat := 200
def maxDepth : Nat := 5
def maxURLsPerDomain : Nat := 10000

/-- The constant `specialChars`, one byte per character. -/
def specialChars : Str := ascii "\x27<>$|()\x60;\x7b\x7d"

/-! ## The context guard -/

/-- The function `min` of `main.go`. -/
def min (a b : Int) : Int := if a < b then a else b

/-- The function `max` of `main.go`. -/
def max (a b : Int) : Int := if a > b then a else b

/-- The function `isValidReflectionContext` of `main.go`; `none` would be a
panic of the slice expression. -/
def isValidReflectionContext (unicodeLower : Str → Str) (content marker : Str) :
    Option Bool :=
  let idx := Index content marker
  if idx = -1 then some false
  else
    let start := max 0 (idx - 100)
    let end_ := min content.length (idx + marker.length + 100)
    match slice content start end_ with
    | none => none
    | some context =>
      if Contains context (ascii "href=") || Contains context (ascii "src=") then
        some false
      else if Contains (ToLower unicodeLower context) (ascii "<script") then
        some false
      else if Contains (ToLower unicodeLower context) (ascii "<meta") then
        some false
      else if Contains context (ascii "<!--") || Contains context (ascii "-->") then
        some false
      else some true

/-! ## Link extraction -/

/-- The token types of `golang.org/x/net/html`. -/
inductive TokenType where
  | ErrorToken
  | TextToken
  | StartTagToken
  | EndTagToken
  | SelfClosingTagToken
  | CommentToken
  | DoctypeToken
  deriving DecidableEq

/-- An attribute of a tag token. -/
structure Attribute where
  Key : Str
  Val : Str

/-- One token: what `tokenizer.Next()` and `tokenizer.Token()` give. -/
structure Token where
  tokenType : TokenType
  Data : Str
  Attr : List Attribute

/-- The loop `for _, attr := range token.Attr` of `extractLinks`, on the pair
of the map `seen` (the keys set to true) and the slice `links`: the first
attribute with key `href` is looked at and ends the loop. -/
def scanAttrs : List Attribute → List Str × List Str → List Str × List Str
  | [], st => st
  | attr :: rest, (seen, links) =>
    if attr.Key = ascii "href" then
      if ¬ attr.Val ∈ seen then (attr.Val :: seen, links ++ [attr.Val])
      else (seen, links)
    else scanAttrs rest (seen, links)

/-- The token loop of `extractLinks`; the end of the token list is the
`ErrorToken` that `Next()` returns at the end of the input. -/
def extractLoop : List Token → List Str × List Str → List Str
  | [], st => st.2
  | token :: rest, st =>
    if token.tokenType = TokenType.ErrorToken then st.2
    else if token.tokenType = TokenType.StartTagToken then
      if token.Data = ascii "a" then extractLoop rest (scanAttrs token.Attr st)
      else extractLoop rest st
    else extractLoop rest st

/-- The method `extractLinks` of `main.go`, on the tokens of the page. -/
def extractLinks (tokens : List Token) : List Str := extractLoop tokens ([], [])

/-! ## The reflection prober -/

/-- One lower-case hexadecimal digit. -/
def hexDigit (n : Nat) : Nat := if n < 10 then 48 + n else 87 + n

/-- The result of `fmt.Sprintf("%x", b)` for a byte slice `b`: two lower-case
hexadecimal digits per byte. -/
def hex (b : List Nat) : Str :=
  b.flatMap (fun x => [hexDigit (x % 256 / 16), hexDigit (x % 16)])

/-- The result of `fmt.Sprintf("%s?%s=%s", baseURL, param, marker)`. -/
def probeURL (baseURL param marker : Str) : Str :=
  baseURL ++ ascii "?" ++ param ++ ascii "=" ++ marker

/-- The result of `fmt.Sprintf("px%x%c%x", randBytes[:4], char, randBytes[4:])`. -/
def charMarker (randBytes : List Nat) (char : Nat) : Str :=
  ascii "px" ++ hex (randBytes.take 4) ++ [char] ++ hex (randBytes.drop 4)

/-- The loop `for _, char := range specialChars` of `checkUnfilteredChars`:
`rand k` is what the `k`-th call of `rand.Read` leaves in `randBytes`, and
`fetchURL` gives the body of a page or `none` for an error. -/
def unfilteredLoop (fetchURL : Str → Option Str) (rand : Nat → List Nat)
    (baseURL param : Str) : List Nat → Nat → List Str → List Str
  | [], _, unfilteredChars => unfilteredChars
  | char :: rest, k, unfilteredChars =>
    let marker := charMarker (rand k) char
    let testURL := probeURL baseURL param marker
    match fetchURL testURL with
    | none => unfilteredLoop fetchURL rand baseURL param rest (k + 1) unfilteredChars
    | some content =>
      if Contains content marker then
        unfilteredLoop fetchURL rand baseURL param rest (k + 1) (unfilteredChars ++ [[char]])
      else unfilteredLoop fetchURL rand baseURL param rest (k + 1) unfilteredChars

/-- The method `checkUnfilteredChars` of `main.go`. -/
def checkUnfilteredChars (fetchURL : Str → Option Str) (rand : Nat → List Nat)
    (baseURL param : Str) : List Str :=
  unfilteredLoop fetchURL rand baseURL param specialChars 0 []

/-- The method `checkReflection` of `main.go`; the result is the list of the
lines printed. `rand 0` and `rand 1` are what the two calls of `rand.Read`
leave in `randBytes`, the later calls are those of `checkUnfilteredChars`. -/
def checkReflection (fetchURL : Str → Option Str) (rand : Nat → List Nat)
    (baseURL param : Str) : List Str :=
  let uniqueMarker := hex (rand 0)
  let testURL := probeURL baseURL param uniqueMarker
  match fetchURL testURL with
  | none => []
  | some content =>
    if Contains content uniqueMarker then
      let verifyMarker := hex (rand 1)
      let verifyURL := probeURL baseURL param verifyMarker
      match fetchURL verifyURL with
      | none => []
      | some verifyContent =>
        if Contains verifyContent verifyMarker then
          let unfilteredChars :=
            checkUnfilteredChars fetchURL (fun k => rand (k + 2)) baseURL param
          if unfilteredChars.length > 0 then
            [baseURL ++ ascii "?" ++ param ++ ascii "=REFLECTED (unfiltered:" ++
              Join unfilteredChars ++ ascii " )"]
          else []
        else []
    else []

/-! ## The crawler -/

/-- What the code reads from the result of `url.Parse`: the fields `Host` and
`RawQuery`, the result of `String()` and the keys of `Query()` in the order in
which `range` yields them. -/
structure URL where
  Host : Str
  RawQuery : Str
  String : Str
  Query : List Str
  deriving DecidableEq

/-- What a crawl depends on and does not change: the HTTP round trip of
`fetchURL` (the body, or `none` for an error), `url.Parse` (`none` for an
error), the HTML tokenizer and the field `targetDomain`. -/
structure Env where
  fetchURL : Str → Option Str
  Parse : Str → Option URL
  tokenize : Str → List Token
  targetDomain : Str

/-- The state of a `Crawler`: the keys of `visitedURLs`, the number of
permits taken from `semaphore`, `urlCount`, and two logs, of the page fetches
of `crawlPage` with their depth and of the names sent to `paramChan` (whether
or not the channel had room). -/
structure Crawler where
  visitedURLs : List Str
  semaphore : Nat
  urlCount : Nat
  fetched : List (Str × Nat)
  offered : List Str
  deriving DecidableEq

/-- The state of the crawler that `newCrawler` returns. -/
def newCrawler : Crawler :=
  { visitedURLs := [], semaphore := 0, urlCount := 0, fetched := [], offered := [] }

/-- The method `isSameDomain` of `main.go`. -/
def isSameDomain (e : Env) (urlStr : Str) : Bool :=
  match e.Parse urlStr with
  | none => false
  | some parsed => HasSuffix parsed.Host e.targetDomain

/-- The method `shouldCrawl` of `main.go`. -/
def shouldCrawl (c : Crawler) : Bool × Crawler :=
  if c.urlCount ≥ maxURLsPerDomain then (false, c)
  else (true, { c with urlCount := c.urlCount + 1 })

/-- The loop `for param := range params` with its non-blocking send. -/
def offer (params : List Str) (c : Crawler) : Crawler :=
  { c with offered := c.offered ++ params }

/-- The deferred `<-c.semaphore`. -/
def release (c : Crawler) : Crawler :=
  { c with semaphore := c.semaphore - 1 }

/-- The loop `for _, href := range links` of `crawlPage`; `child url` is the
goroutine `c.crawlPage(url, paramChan, depth+1)`, run where it is started. -/
def linkLoop (e : Env) (child : Str → Crawler → Option Crawler) :
    List Str → Crawler → Option Crawler
  | [], c => some c
  | href :: rest, c =>
    match e.Parse href with
    | none => linkLoop e child rest c
    | some fullURL =>
      let absoluteURL := fullURL.String
      match (if isSameDomain e absoluteURL then child absoluteURL c else some c) with
      | none => none
      | some c =>
        if fullURL.RawQuery ≠ [] then linkLoop e child rest (offer fullURL.Query c)
        else linkLoop e child rest c

/-- The method `crawlPage` of `main.go`, the goroutines of a page being run
one after the other, each where it is started. The result is `none` when the
call does not return: the fuel is used up, or the send on `semaphore` finds
all `maxWorkers` permits taken. -/
def crawlPage (e : Env) : Nat → Str → Nat → Crawler → Option Crawler
  | 0, _, _, _ => none
  | fuel + 1, pageURL, depth, c =>
    if depth > maxDepth then some c
    else
      match shouldCrawl c with
      | (false, c) => some c
      | (true, c) =>
        if c.semaphore ≥ maxWorkers then none
        else
          let c := { c with semaphore := c.semaphore + 1 }
          if pageURL ∈ c.visitedURLs then some (release c)
          else
            let c := { c with visitedURLs := pageURL :: c.visitedURLs }
            let c := { c with fetched := c.fetched ++ [(pageURL, depth)] }
            match e.fetchURL pageURL with
            | none => some (release c)
            | some content =>
              let c :=
                match e.Parse pageURL with
                | some parsedURL => offer parsedURL.Query c
                | none => c
              let links := extractLinks (e.tokenize content)
              (linkLoop e (fun url c => crawlPage e fuel url (depth + 1) c) links c).map
                release

/-! ## The crawler, goroutine by goroutine -/

/-- Where a goroutine that runs `crawlPage` stands: at the top of the
function; before the send on `semaphore`, `shouldCrawl` having returned true;
before `LoadOrStore`, holding a permit; before `fetchURL`, having stored its
URL; in the loop over the links that remain; at `wg.Wait()`; returned. -/
inductive Stage where
  | entry
  | acquire
  | claim
  | fetch
  | links (rest : List Str)
  | wait
  | done
  deriving DecidableEq

/-- A goroutine that runs `crawlPage(pageURL, paramChan, depth)`; `parent` is
the position of the goroutine whose `WaitGroup` it belongs to. -/
structure Task where
  pageURL : Str
  depth : Nat
  parent : Option Nat
  stage : Stage
  deriving DecidableEq

/-- The shared state of the crawler and the goroutines started so far. -/
structure Pool where
  crawler : Crawler
  tasks : List Task

/-- The pool in which `crawlPage(root, paramChan, 0)` has just been called. -/
def startPool (root : Str) : Pool :=
  { crawler := newCrawler,
    tasks := [{ pageURL := root, depth := 0, parent := none, stage := Stage.entry }] }

/-- All goroutines of the `WaitGroup` of goroutine `i` have returned. -/
def childrenDone (tasks : List Task) (i : Nat) : Bool :=
  tasks.all (fun t => decide (t.parent ≠ some i ∨ t.stage = Stage.done))

/-- One step of goroutine `i`: the next action of its `crawlPage` on the
shared state. A goroutine that waits for a permit or for its `WaitGroup`, or
that has returned, leaves the pool as it is. The sends on `paramChan`, which
touch the log of offered names only, are taken together with the action
before them. -/
def step (e : Env) (p : Pool) (i : Nat) : Pool :=
  match p.tasks[i]? with
  | none => p
  | some t =>
    match t.stage with
    | Stage.entry =>
      if t.depth > maxDepth then
        { p with tasks := p.tasks.set i { t with stage := Stage.done } }
      else
        match shouldCrawl p.crawler with
        | (false, c) => { crawler := c, tasks := p.tasks.set i { t with stage := Stage.done } }
        | (true, c) => { crawler := c, tasks := p.tasks.set i { t with stage := Stage.acquire } }
    | Stage.acquire =>
      if p.crawler.semaphore ≥ maxWorkers then p
      else
        { crawler := { p.crawler with semaphore := p.crawler.semaphore + 1 },
          tasks := p.tasks.set i { t with stage := Stage.claim } }
    | Stage.claim =>
      if t.pageURL ∈ p.crawler.visitedURLs then
        { crawler := release p.crawler,
          tasks := p.tasks.set i { t with stage := Stage.done } }
      else
        { crawler := { p.crawler with visitedURLs := t.pageURL :: p.crawler.visitedURLs },
          tasks := p.tasks.set i { t with stage := Stage.fetch } }
    | Stage.fetch =>
      let c := { p.crawler with fetched := p.crawler.fetched ++ [(t.pageURL, t.depth)] }
      match e.fetchURL t.pageURL with
      | none =>
        { crawler := release c, tasks := p.tasks.set i { t with stage := Stage.done } }
      | some content =>
        let c :=
          match e.Parse t.pageURL with
          | some parsedURL => offer parsedURL.Query c
          | none => c
        { crawler := c,
          tasks := p.tasks.set i
            { t with stage := Stage.links (extractLinks (e.tokenize content)) } }
    | Stage.links [] => { p with tasks := p.tasks.set i { t with stage := Stage.wait } }
    | Stage.links (href :: rest) =>
      match e.Parse href with
      | none => { p with tasks := p.tasks.set i { t with stage := Stage.links rest } }
      | some fullURL =>
        let absoluteURL := fullURL.String
        let started :=
          if isSameDomain e absoluteURL then
            [{ pageURL := absoluteURL, depth := t.depth + 1, parent := some i,
               stage := Stage.entry }]
          else []
        { crawler :=
            if fullURL.RawQuery ≠ [] then offer fullURL.Query p.crawler else p.crawler,
          tasks := p.tasks.set i { t with stage := Stage.links rest } ++ started }
    | Stage.wait =>
      if childrenDone p.tasks i then
        { crawler := release p.crawler,
          tasks := p.tasks.set i { t with stage := Stage.done } }
      else p
    | Stage.done => p

/-- The pool after the goroutines have taken their steps in the order
`schedule`, each entry the position of the goroutine that moves. -/
def run (e : Env) (schedule : List Nat) (p : Pool) : Pool :=
  schedule.foldl (step e) p

/-! ## The parameter workers -/

/-- The body of the loop `for param := range paramChan` of a worker of
`processURL`, on the pair of the keys of `processedParams` and the log of the
calls `crawler.checkReflection(targetURL, param)`. -/
def workerStep (st : List Str × List Str) (param : Str) : List Str × List Str :=
  if ¬ param ∈ st.1 then (param :: st.1, st.2 ++ [param]) else st

/-- The worker loops of `processURL` on the names received from `paramChan`,
in the order in which the workers take `paramMutex`. -/
def workerLoop (received : List Str) : List Str × List Str :=
  received.foldl workerStep ([], [])

/-! ## A small site -/

/-- The results of `url.Parse` on the four strings of the small site. -/
def siteParse (s : Str) : Option URL :=
  if s = ascii "https://example.com/" then
    some { Host := ascii "example.com", RawQuery := [], String := s, Query := [] }
  else if s = ascii "https://example.com/about?id=1" then
    some { Host := ascii "example.com", RawQuery := ascii "id=1", String := s,
           Query := [ascii "id"] }
  else if s = ascii "/about?id=1" then
    some { Host := [], RawQuery := ascii "id=1", String := s, Query := [ascii "id"] }
  else if s = ascii "http://evilexample.com/" then
    some { Host := ascii "evilexample.com", RawQuery := [], String := s, Query := [] }
  else none

/-- The home page of the small site: one anchor with a relative link. -/
def sitePage : Str := ascii "<a href=\x22/about?id=1\x22>about</a>"

/-- The site `example.com`: the home page links to `/about?id=1`, and the
page `https://example.com/about?id=1` exists. -/
def siteEnv : Env where
  fetchURL := fun u =>
    if u = ascii "https://example.com/" then some sitePage
    else if u = ascii "https://example.com/about?id=1" then some (ascii "about")
    else none
  Parse := siteParse
  tokenize := fun content =>
    if content = sitePage then
      [{ tokenType := TokenType.StartTagToken, Data := ascii "a",
         Attr := [{ Key := ascii "href", Val := ascii "/about?id=1" }] },
       { tokenType := TokenType.TextToken, Data := ascii "about", Attr := [] },
       { tokenType := TokenType.EndTagToken, Data := ascii "a", Attr := [] }]
    else [{ tokenType := TokenType.TextToken, Data := content, Attr := [] }]
  targetDomain := ascii "example.com"

/-! ## A wide site -/

/-- The home page URL of the wide site. -/
def wideRoot : Str := ascii "https://example.com/"

/-- The URL of page `i` of the wide site: `https://example.com/a`,
`https://example.com/aa`, and so on. -/
def widePage (i : Nat) : Str := wideRoot ++ List.replicate (i + 1) 97

/-- The home page of the wide site: 199 anchors, one for each page. -/
def wideHome : Str :=
  (List.range 199).flatMap (fun i => ascii "<a href=\x22" ++ widePage i ++ ascii "\x22>")

/-- Every other page of the wide site: one anchor, back to the home page. -/
def wideBody : Str := ascii "<a href=\x22https://example.com/\x22>"

/-- The start tag token of an anchor with the one attribute `href`. -/
def anchorToken (href : Str) : Token :=
  { tokenType := TokenType.StartTagToken, Data := ascii "a",
    Attr := [{ Key := ascii "href", Val := href }] }

/-- The site `example.com` with a home page that links to 199 pages, each of
which links back to the home page. -/
def wideEnv : Env where
  fetchURL := fun u => if u = wideRoot then some wideHome else some wideBody
  Parse := fun s =>
    if wideRoot.isPrefixOf s then
      some { Host := ascii "example.com", RawQuery := [], String := s, Query := [] }
    else none
  tokenize := fun content =>
    if content = wideHome then (List.range 199).map (fun i => anchorToken (widePage i))
    else if content = wideBody then [anchorToken wideRoot]
    else []
  targetDomain := ascii "example.com"

/-- The goroutine of page `i` of the wide site, started by the home page. -/
def wideChild (i : Nat) (stage : Stage) : Task :=
  { pageURL := widePage i, depth := 1, parent := some 0, stage := stage }

/-- The goroutine that page `i` of the wide site starts for its link to the
home page. -/
def wideGrandchild (i : Nat) (stage : Stage) : Task :=
  { pageURL := wideRoot, depth := 2, parent := some (i + 1), stage := stage }

/-- A schedule on the wide site: the home page runs up to `wg.Wait()`, then
each of its 199 goroutines in turn runs up to its own `wg.Wait()`, then each
of their goroutines passes `shouldCrawl`. -/
def wideSchedule : List Nat :=
  List.replicate 204 0 ++ (List.range 199).flatMap (fun i => List.replicate 6 (i + 1)) ++
    List.range' 200 199

/-- The pool that the wide site is in after `wideSchedule`: the home page and
its 199 goroutines hold the 200 permits and wait for their goroutines, which
wait for a permit. -/
def widePool : Pool :=
  { crawler :=
      { visitedURLs := ((List.range 199).map widePage).reverse ++ [wideRoot],
        semaphore := 200, urlCount := 399,
        fetched := (wideRoot, 0) :: (List.range 199).map (fun i => (widePage i, 1)),
        offered := [] },
    tasks :=
      { pageURL := wideRoot, depth := 0, parent := none, stage := Stage.wait } ::
        ((List.range 199).map (fun i => wideChild i Stage.wait) ++
          (List.range 199).map (fun i => wideGrandchild i Stage.acquire)) }

/-- The pool of the wide site after the home page and its first `j`
goroutines have run up to `wg.Wait()`. -/
def wideAfter (j : Nat) : Pool :=
  { crawler :=
      { visitedURLs := ((List.range j).map widePage).reverse ++ [wideRoot],
        semaphore := j + 1, urlCount := j + 1,
        fetched := (wideRoot, 0) :: (List.range j).map (fun i => (widePage i, 1)),
        offered := [] },
    tasks :=
      { pageURL := wideRoot, depth := 0, parent := none, stage := Stage.wait } ::
        ((List.range j).map (fun i => wideChild i Stage.wait) ++
          ((List.range' j (199 - j)).map (fun i => wideChild i Stage.entry) ++
            (List.range j).map (fun i => wideGrandchild i Stage.entry))) }

/-! ## Specification vocabulary -/

/-- The string `sub` occurs in `s` at position `i` and at no earlier position. -/
def FirstOcc (s sub : Str) (i : Nat) : Prop :=
  sub <+: s.drop i ∧ ∀ j, j < i → ¬ sub <+: s.drop j

/-- The part of `content` from 100 positions before position `i` to 100
positions after the end of the occurrence of `marker` at `i`, cut at the two
ends of `content`. -/
def windowAround (content marker : Str) (i : Nat) : Str :=
  (content.take (i + marker.length + 100)).drop (i - 100)

/-- The window `w` holds one of the patterns that reject a context, the two
tag openers being looked for in the lower-cased window. -/
def Rejecting (unicodeLower : Str → Str) (w : Str) : Prop :=
  ascii "href=" <:+: w ∨ ascii "src=" <:+: w ∨
  ascii "<script" <:+: ToLower unicodeLower w ∨
  ascii "<meta" <:+: ToLower unicodeLower w ∨
  ascii "<!--" <:+: w ∨ ascii "-->" <:+: w

/-- The window `w` holds one of the rejecting patterns, the two tag openers
in any combination of upper-case and lower-case ASCII letters. -/
def RejectingAnyCase (w : Str) : Prop :=
  ascii "href=" <:+: w ∨ ascii "src=" <:+: w ∨
  (∃ v, v <:+: w ∧ v.map lowerByte = ascii "<script") ∨
  (∃ v, v <:+: w ∧ v.map lowerByte = ascii "<meta") ∨
  ascii "<!--" <:+: w ∨ ascii "-->" <:+: w

/-- The value of the first attribute with key `href`, if there is one. -/
def firstHref (attrs : List Attribute) : Option Str :=
  (attrs.find? (fun a => decide (a.Key = ascii "href"))).map (fun a => a.Val)

/-- The values of the first `href` attribute of the `a` start tags of a page,
in page order, with repetitions; the page ends at its first `ErrorToken`. -/
def hrefValues (tokens : List Token) : List Str :=
  (tokens.takeWhile (fun t => decide (t.tokenType ≠ TokenType.ErrorToken))).filterMap
    (fun t =>
      if t.tokenType = TokenType.StartTagToken ∧ t.Data = ascii "a" then firstHref t.Attr
      else none)

/-- The list `xs` without the elements of `seen` and without the second and
later occurrences of an element. -/
def keepFirst : List Str → List Str → List Str
  | _, [] => []
  | seen, x :: xs =>
    if x ∈ seen then keepFirst seen xs else x :: keepFirst (x :: seen) xs

/-- The fetch of `url` succeeds and its body contains `marker`. -/
def Reflects (fetchURL : Str → Option Str) (url marker : Str) : Prop :=
  ∃ body, fetchURL url = some body ∧ marker <:+: body

/-- Whether the fetch of `url` succeeds with a body that contains `marker`. -/
def reflects (fetchURL : Str → Option Str) (url marker : Str) : Bool :=
  match fetchURL url with
  | none => false
  | some body => decide (marker <:+: body)

/-- The byte is a lower-case hexadecimal digit. -/
def IsHexDigit (d : Nat) : Prop := (48 ≤ d ∧ d ≤ 57) ∨ (97 ≤ d ∧ d ≤ 102)

/-- The entity encoding of `<` and `>` and of nothing else. -/
def escapeAngle (v : Str) : Str :=
  v.flatMap (fun b => if b = 60 then ascii "&lt;" else if b = 62 then ascii "&gt;" else [b])

/-- A server for the probes of `http://t/s` with the parameter `q`: it shows
the value of the query, which starts at byte 13 of the URL, on an HTML page. -/
def echoServer (url : Str) : Option Str :=
  some (ascii "<html><body><p>Results for " ++ url.drop 13 ++ ascii "</p></body></html>")

/-- The same server with the entity encoding of `<` and `>` in the value. -/
def encodingServer (url : Str) : Option Str :=
  some (ascii "<html><body><p>Results for " ++ escapeAngle (url.drop 13) ++
    ascii "</p></body></html>")

/-- A server with one fixed page, which holds the marker of twelve zero bytes. -/
def staticServer (_ : Str) : Option Str :=
  some (ascii "<html><body>000000000000000000000000</body></html>")

/-- A sequence of random values: twelve bytes for each of the two markers,
eight bytes for each character. -/
def sampleRand (k : Nat) : List Nat :=
  if k < 2 then List.replicate 12 k else List.replicate 8 k

/-- One link hop: the fetch of `v` succeeds, and one of the links of the page
parses to a URL whose string is `u` and which `isSameDomain` accepts. -/
def Hop (e : Env) (v u : Str) : Prop :=
  ∃ content href fullURL, e.fetchURL v = some content ∧
    href ∈ extractLinks (e.tokenize content) ∧ e.Parse href = some fullURL ∧
    fullURL.String = u ∧ isSameDomain e u = true

/-- The URL `u` is reached from `v` by exactly `n` link hops. -/
def Hops (e : Env) : Nat → Str → Str → Prop
  | 0, v, u => u = v
  | n + 1, v, u => ∃ x, Hop e v x ∧ Hops e n x u

/-- An entry of the fetch log made by the call `crawlPage(pageURL, depth)` or
below it: its depth is between `depth` and `maxDepth`, and its URL is reached
from `pageURL` by as many hops as its depth exceeds `depth`. -/
def Reached (e : Env) (pageURL : Str) (depth : Nat) (x : Str × Nat) : Prop :=
  depth ≤ x.2 ∧ x.2 ≤ maxDepth ∧ Hops e (x.2 - depth) pageURL x.1

/-- The invariant of the crawl state: the visited set, kept without
repetition, is no larger than `urlCount`, which is at most the cap. -/
def CrawlInv (c : Crawler) : Prop :=
  c.visitedURLs.Nodup ∧ c.visitedURLs.length ≤ c.urlCount ∧ c.urlCount ≤ maxURLsPerDomain

/-- How a state `c'` continues a state `c`: the counter grows, stays under
the cap, and grows by at least as much as the visited set; the visited set
only grows; the fetch log is continued by entries for URLs that were not
visited before, are visited now, differ from each other and satisfy `P`; the
log of offered names is continued. -/
structure Extends (P : Str × Nat → Prop) (c c' : Crawler) : Prop where
  count_le : c.urlCount ≤ c'.urlCount
  count_cap : c.urlCount ≤ maxURLsPerDomain → c'.urlCount ≤ maxURLsPerDomain
  paid : c'.visitedURLs.length + c.urlCount ≤ c'.urlCount + c.visitedURLs.length
  visited_mono : ∀ u, u ∈ c.visitedURLs → u ∈ c'.visitedURLs
  visited_nodup : c.visitedURLs.Nodup → c'.visitedURLs.Nodup
  fetched_ext : ∃ added : List (Str × Nat), c'.fetched = c.fetched ++ added ∧
    (added.map Prod.fst).Nodup ∧
    ∀ x ∈ added, x.1 ∉ c.visitedURLs ∧ x.1 ∈ c'.visitedURLs ∧ P x
  offered_ext : ∃ more : List Str, c'.offered = c.offered ++ more

/-- The URLs that a goroutine has stored in the visited set and not yet
fetched. -/
def claimed (tasks : List Task) : List Str :=
  (tasks.filter (fun t => decide (t.stage = Stage.fetch))).map Task.pageURL

/-- The number of goroutines for which `shouldCrawl` has counted a URL that
`LoadOrStore` has not yet looked at. -/
def pending (tasks : List Task) : Nat :=
  tasks.countP (fun t => decide (t.stage = Stage.acquire ∨ t.stage = Stage.claim))

/-- The invariant of the pool of goroutines. -/
structure PoolInv (p : Pool) : Prop where
  once : (p.crawler.fetched.map Prod.fst ++ claimed p.tasks).Nodup
  visited : ∀ u, u ∈ p.crawler.fetched.map Prod.fst ++ claimed p.tasks →
    u ∈ p.crawler.visitedURLs
  nodup : p.crawler.visitedURLs.Nodup
  paid : p.crawler.visitedURLs.length + pending p.tasks ≤ p.crawler.urlCount
  cap : p.crawler.urlCount ≤ maxURLsPerDomain
  depth_task : ∀ t, t ∈ p.tasks → t.stage ≠ Stage.entry → t.stage ≠ Stage.done →
    t.depth ≤ maxDepth
  depth_log : ∀ x, x ∈ p.crawler.fetched → x.2 ≤ maxDepth

/-- The URLs for which the loop over `links` starts a goroutine. -/
def inScope (e : Env) (links : List Str) : List Str :=
  links.filterMap (fun href =>
    match e.Parse href with
    | none => none
    | some fullURL => if isSameDomain e fullURL.String then some fullURL.String else none)

/-- The links of the page at `u`; none when the fetch fails. -/
def pageLinks (e : Env) (u : Str) : List Str :=
  match e.fetchURL u with
  | none => []
  | some content => extractLinks (e.tokenize content)

/-- The size of the tree of calls below a call of `crawlPage` on `u` that has
`r` levels of depth left, every call taken as if it fetched its page. -/
def calls (e : Env) : Nat → Str → Nat
  | 0, _ => 1
  | r + 1, u => 1 + ((inScope e (pageLinks e u)).map (calls e r)).sum

/-- The number of calls that a goroutine stands for: itself and the calls that
its remaining links can still start. -/
def weight (e : Env) (t : Task) : Nat :=
  match t.stage with
  | Stage.links rest => 1 + ((inScope e rest).map (calls e (maxDepth - t.depth))).sum
  | Stage.wait => 1
  | Stage.done => 1
  | _ => calls e (maxDepth + 1 - t.depth) t.pageURL

/-- The sum of the weights of the goroutines. -/
def total (e : Env) (tasks : List Task) : Nat := (tasks.map (weight e)).sum

/-! ## Facts about the string functions -/

theorem infix_iff_prefix_drop (sub s : Str) :
    sub <:+: s ↔ ∃ j, sub <+: s.drop j := by
  constructor
  · rintro ⟨a, b, h⟩
    refine ⟨a.length, b, ?_⟩
    rw [← h, List.append_assoc, List.drop_left]
  · rintro ⟨j, h⟩
    exact List.infix_iff_prefix_suffix.2 ⟨_, h, List.drop_suffix j s⟩

theorem index_cases (s sub : Str) :
    (Index s sub = -1 ∧ ∀ j, ¬ sub <+: s.drop j) ∨
      ∃ i : Nat, Index s sub = (i : Int) ∧ FirstOcc s sub i := by
  induction s with
  | nil =>
    by_cases h : sub.isPrefixOf [] = true
    · right
      refine ⟨0, by simp [Index, h], ?_, fun j hj => absurd hj (Nat.not_lt_zero j)⟩
      simpa using List.isPrefixOf_iff_prefix.1 h
    · left
      refine ⟨by simp [Index, h], fun j hj => h ?_⟩
      rw [List.drop_nil] at hj
      exact List.isPrefixOf_iff_prefix.2 hj
  | cons c s ih =>
    by_cases h : sub.isPrefixOf (c :: s) = true
    · right
      refine ⟨0, by simp [Index, h], ?_, fun j hj => absurd hj (Nat.not_lt_zero j)⟩
      simpa using List.isPrefixOf_iff_prefix.1 h
    · have hnp : ¬ sub <+: c :: s := fun hp => h (List.isPrefixOf_iff_prefix.2 hp)
      rcases ih with ⟨hi, hno⟩ | ⟨i, hi, hp, hmin⟩
      · left
        refine ⟨by simp [Index, h, hi], fun j => ?_⟩
        cases j with
        | zero => simpa using hnp
        | succ j => simpa using hno j
      · right
        refine ⟨i + 1, ?_, by simpa using hp, fun j hj => ?_⟩
        · have : ¬ ((i : Int) < 0) := by omega
          simp [Index, h, hi, this]
        · cases j with
          | zero => simpa using hnp
          | succ j => simpa using hmin j (by omega)

theorem firstOcc_unique {s sub : Str} {i j : Nat}
    (hi : FirstOcc s sub i) (hj : FirstOcc s sub j) : i = j := by
  rcases Nat.lt_trichotomy i j with h | h | h
  · exact absurd hi.1 (hj.2 i h)
  · exact h
  · exact absurd hj.1 (hi.2 j h)

theorem firstOcc_bound {s sub : Str} {i : Nat} (h : FirstOcc s sub i) :
    i + sub.length ≤ s.length := by
  have hl := h.1.length_le
  rw [List.length_drop] at hl
  by_cases hle : i ≤ s.length
  · omega
  · have hd : s.drop i = [] := List.drop_eq_nil_of_le (by omega)
    have hs : sub = [] := by
      have := h.1
      rw [hd] at this
      exact List.prefix_nil.1 this
    have : ¬ (0 < i) := fun hpos => h.2 0 hpos (by simp [hs])
    omega

theorem index_eq_iff (s sub : Str) (i : Nat) :
    Index s sub = (i : Int) ↔ FirstOcc s sub i := by
  rcases index_cases s sub with ⟨h, hno⟩ | ⟨k, hk, hf⟩
  · constructor
    · intro hi; omega
    · intro hf; exact absurd hf.1 (hno i)
  · constructor
    · intro hi
      have : k = i := by omega
      exact this ▸ hf
    · intro hf2
      rw [hk, firstOcc_unique hf hf2]

theorem index_neg_iff (s sub : Str) : Index s sub = -1 ↔ ¬ sub <:+: s := by
  rw [infix_iff_prefix_drop]
  rcases index_cases s sub with ⟨h, hno⟩ | ⟨k, hk, hf⟩
  · exact ⟨fun _ ⟨j, hj⟩ => hno j hj, fun _ => h⟩
  · constructor
    · intro h; omega
    · intro h; exact absurd ⟨k, hf.1⟩ h

theorem contains_iff (s sub : Str) : Contains s sub = true ↔ sub <:+: s := by
  unfold Contains
  rw [decide_eq_true_iff]
  constructor
  · intro h
    by_contra hn
    have := (index_neg_iff s sub).2 hn
    omega
  · intro h
    rcases index_cases s sub with ⟨h1, hno⟩ | ⟨k, hk, _⟩
    · exact absurd h ((index_neg_iff s sub).1 h1)
    · omega

theorem contains_eq_false_iff (s sub : Str) : Contains s sub = false ↔ ¬ sub <:+: s := by
  rw [← contains_iff]; simp

theorem infix_map_iff (f : Nat → Nat) (needle w : Str) :
    needle <:+: w.map f ↔ ∃ v, v <:+: w ∧ v.map f = needle := by
  constructor
  · rintro ⟨a, b, h⟩
    obtain ⟨l₁, l₂, hw, h₁, _⟩ := List.map_eq_append_iff.1 h.symm
    obtain ⟨l₃, l₄, hl, _, h₄⟩ := List.map_eq_append_iff.1 h₁
    exact ⟨l₄, ⟨l₃, l₂, by rw [hw, hl]⟩, h₄⟩
  · rintro ⟨v, hv, rfl⟩
    exact hv.map f

theorem toLower_ascii (unicodeLower : Str → Str) (w : Str) (h : ∀ b ∈ w, b < 128) :
    ToLower unicodeLower w = w.map lowerByte := by
  have : w.all (fun b => decide (b < 128)) = true := by
    simpa [List.all_eq_true] using h
  simp [ToLower, this]

/-! ## The context guard: window and verdict -/

theorem window_bounds {content marker : Str} {i : Nat} (h : FirstOcc content marker i) :
    0 ≤ max 0 ((i : Int) - 100) ∧
      max 0 ((i : Int) - 100) ≤ min content.length ((i : Int) + marker.length + 100) ∧
      min content.length ((i : Int) + marker.length + 100) ≤ (content.length : Int) := by
  have hb := firstOcc_bound h
  unfold max min
  split_ifs <;> omega

theorem slice_window {content marker : Str} {i : Nat} (h : FirstOcc content marker i) :
    slice content (max 0 ((i : Int) - 100))
        (min content.length ((i : Int) + marker.length + 100)) =
      some (windowAround content marker i) := by
  have hb := firstOcc_bound h
  have hw := window_bounds h
  unfold slice
  rw [if_pos hw]
  congr 1
  unfold windowAround
  rw [List.drop_take]
  have hs : (max 0 ((i : Int) - 100)).toNat = i - 100 := by
    unfold max; split_ifs <;> omega
  have he : (min content.length ((i : Int) + marker.length + 100) -
      max 0 ((i : Int) - 100)).toNat =
        Nat.min content.length (i + marker.length + 100) - (i - 100) := by
    unfold max min
    have : Nat.min content.length (i + marker.length + 100) =
        if content.length ≤ i + marker.length + 100 then content.length
        else i + marker.length + 100 := by
      simp only [Nat.min_def]
    rw [this]
    split_ifs <;> omega
  rw [hs, he, List.take_eq_take, List.length_drop]
  have : Nat.min content.length (i + marker.length + 100) =
      if content.length ≤ i + marker.length + 100 then content.length
      else i + marker.length + 100 := by
    simp only [Nat.min_def]
  rw [this]
  split_ifs <;> omega

theorem verdict_of_firstOcc (unicodeLower : Str → Str) {content marker : Str} {i : Nat}
    (h : FirstOcc content marker i) :
    (isValidReflectionContext unicodeLower content marker = some true ∧
        ¬ Rejecting unicodeLower (windowAround content marker i)) ∨
      (isValidReflectionContext unicodeLower content marker = some false ∧
        Rejecting unicodeLower (windowAround content marker i)) := by
  have hi := (index_eq_iff content marker i).2 h
  have hne : ¬ ((i : Int) = -1) := by omega
  unfold isValidReflectionContext
  simp only [hi, hne, if_false, slice_window h]
  unfold Rejecting
  simp only [← contains_iff, Bool.or_eq_true]
  by_cases h1 : Contains (windowAround content marker i) (ascii "href=") = true <;>
  by_cases h2 : Contains (windowAround content marker i) (ascii "src=") = true <;>
  by_cases h3 : Contains (ToLower unicodeLower (windowAround content marker i))
      (ascii "<script") = true <;>
  by_cases h4 : Contains (ToLower unicodeLower (windowAround content marker i))
      (ascii "<meta") = true <;>
  by_cases h5 : Contains (windowAround content marker i) (ascii "<!--") = true <;>
  by_cases h6 : Contains (windowAround content marker i) (ascii "-->") = true <;>
  simp [h1, h2, h3, h4, h5, h6]

theorem rejecting_ascii (unicodeLower : Str → Str) (w : Str) (h : ∀ b ∈ w, b < 128) :
    Rejecting unicodeLower w ↔ RejectingAnyCase w := by
  unfold Rejecting RejectingAnyCase
  rw [toLower_ascii unicodeLower w h, infix_map_iff, infix_map_iff]

theorem ascii_of_lower {v needle : Str} (h : v.map lowerByte = needle)
    (hn : ∀ b ∈ needle, b < 128) : ∀ b ∈ v, b < 128 := by
  intro b hb
  have hm : lowerByte b ∈ needle := h ▸ List.mem_map_of_mem _ hb
  have := hn _ hm
  unfold lowerByte at this
  split_ifs at this <;> omega

theorem infix_toLower (unicodeLower : Str → Str) (w v needle : Str)
    (hkeep : ∀ w v : Str, v <:+: w → (∀ b ∈ v, b < 128) → v.map lowerByte <:+: unicodeLower w)
    (hv : v <:+: w) (h : v.map lowerByte = needle) (hn : ∀ b ∈ needle, b < 128) :
    needle <:+: ToLower unicodeLower w := by
  unfold ToLower
  split_ifs
  · exact h ▸ hv.map lowerByte
  · exact h ▸ hkeep w v hv (ascii_of_lower h hn)

theorem rejecting_of_anyCase (unicodeLower : Str → Str) (w : Str)
    (hkeep : ∀ w v : Str, v <:+: w → (∀ b ∈ v, b < 128) → v.map lowerByte <:+: unicodeLower w)
    (h : RejectingAnyCase w) : Rejecting unicodeLower w := by
  unfold RejectingAnyCase at h
  unfold Rejecting
  rcases h with h | h | ⟨v, hv, h⟩ | ⟨v, hv, h⟩ | h | h
  · exact Or.inl h
  · exact Or.inr (Or.inl h)
  · exact Or.inr (Or.inr (Or.inl (infix_toLower unicodeLower w v _ hkeep hv h (by decide))))
  · exact Or.inr (Or.inr (Or.inr (Or.inl
      (infix_toLower unicodeLower w v _ hkeep hv h (by decide)))))
  · exact Or.inr (Or.inr (Or.inr (Or.inr (Or.inl h))))
  · exact Or.inr (Or.inr (Or.inr (Or.inr (Or.inr h))))

/-- C8: `isValidReflectionContext` never panics on its slice; it returns true
exactly when the marker occurs and the window from 100 positions before its
first occurrence to 100 positions after the end of that occurrence, cut at the
ends of the content, holds none of `href=`, `src=`, `<!--`, `-->` and its
lower-casing holds neither `<script` nor `<meta`; it returns false when the
marker does not occur; for ASCII content the two tag openers are rejected in
every combination of letter cases, and they make any content rejected when
the Unicode lower-casing keeps the lower-cased ASCII substrings; the bounds of
the slice are in range. -/
theorem isValidReflectionContext_spec (unicodeLower : Str → Str) (content marker : Str) :
    isValidReflectionContext unicodeLower content marker ≠ none ∧
    (isValidReflectionContext unicodeLower content marker = some true ↔
      marker <:+: content ∧ ∃ i, FirstOcc content marker i ∧
        ¬ Rejecting unicodeLower (windowAround content marker i)) ∧
    (¬ marker <:+: content →
      isValidReflectionContext unicodeLower content marker = some false) ∧
    ((∀ b ∈ content, b < 128) →
      (isValidReflectionContext unicodeLower content marker = some true ↔
        marker <:+: content ∧ ∃ i, FirstOcc content marker i ∧
          ¬ RejectingAnyCase (windowAround content marker i))) ∧
    ((∀ w v : Str, v <:+: w → (∀ b ∈ v, b < 128) → v.map lowerByte <:+: unicodeLower w) →
      ∀ i, FirstOcc content marker i →
        RejectingAnyCase (windowAround content marker i) →
        isValidReflectionContext unicodeLower content marker = some false) ∧
    (∀ i : Nat, Index content marker = (i : Int) →
      0 ≤ max 0 ((i : Int) - 100) ∧
      max 0 ((i : Int) - 100) ≤ min content.length ((i : Int) + marker.length + 100) ∧
      min content.length ((i : Int) + marker.length + 100) ≤ (content.length : Int) ∧
      slice content (max 0 ((i : Int) - 100))
          (min content.length ((i : Int) + marker.length + 100)) =
        some (windowAround content marker i)) := by
  have hmiss : ¬ marker <:+: content →
      isValidReflectionContext unicodeLower content marker = some false := by
    intro hn
    have := (index_neg_iff content marker).2 hn
    simp [isValidReflectionContext, this]
  have hmain : isValidReflectionContext unicodeLower content marker = some true ↔
      marker <:+: content ∧ ∃ i, FirstOcc content marker i ∧
        ¬ Rejecting unicodeLower (windowAround content marker i) := by
    constructor
    · intro ht
      have hocc : marker <:+: content := by
        by_contra hn
        rw [hmiss hn] at ht
        simp at ht
      refine ⟨hocc, ?_⟩
      rcases index_cases content marker with ⟨h1, _⟩ | ⟨i, _, hf⟩
      · exact absurd hocc ((index_neg_iff content marker).1 h1)
      · refine ⟨i, hf, ?_⟩
        rcases verdict_of_firstOcc unicodeLower hf with ⟨_, hr⟩ | ⟨hv, _⟩
        · exact hr
        · rw [hv] at ht
          simp at ht
    · rintro ⟨_, i, hf, hr⟩
      rcases verdict_of_firstOcc unicodeLower hf with ⟨hv, _⟩ | ⟨_, hr2⟩
      · exact hv
      · exact absurd hr2 hr
  refine ⟨?_, hmain, hmiss, ?_, ?_, ?_⟩
  · rcases index_cases content marker with ⟨h1, _⟩ | ⟨i, _, hf⟩
    · rw [hmiss ((index_neg_iff content marker).1 h1)]
      simp
    · rcases verdict_of_firstOcc unicodeLower hf with ⟨hv, _⟩ | ⟨hv, _⟩ <;>
        · rw [hv]
          simp
  · intro hascii
    rw [hmain]
    have hw : ∀ i, ∀ b ∈ windowAround content marker i, b < 128 := fun i b hb =>
      hascii b (List.mem_of_mem_take (List.mem_of_mem_drop hb))
    constructor
    · rintro ⟨ho, i, hf, hr⟩
      exact ⟨ho, i, hf, fun hc => hr ((rejecting_ascii unicodeLower _ (hw i)).2 hc)⟩
    · rintro ⟨ho, i, hf, hr⟩
      exact ⟨ho, i, hf, fun hc => hr ((rejecting_ascii unicodeLower _ (hw i)).1 hc)⟩
  · intro hkeep i hf hrej
    rcases verdict_of_firstOcc unicodeLower hf with ⟨_, hr⟩ | ⟨hv, _⟩
    · exact absurd (rejecting_of_anyCase unicodeLower _ hkeep hrej) hr
    · exact hv
  · intro i hi
    have hf := (index_eq_iff content marker i).1 hi
    have hb := window_bounds hf
    exact ⟨hb.1, hb.2.1, hb.2.2, slice_window hf⟩

theorem isValidReflectionContext_spec_witness :
    (¬ ascii "xyz" <:+: ascii "<p>abc</p>" ∧
      isValidReflectionContext id (ascii "<p>abc</p>") (ascii "xyz") = some false) ∧
    ((∀ b ∈ ascii "<p>abc</p>", b < 128) ∧
      (isValidReflectionContext id (ascii "<p>abc</p>") (ascii "abc") = some true ↔
        ascii "abc" <:+: ascii "<p>abc</p>" ∧
          ∃ i, FirstOcc (ascii "<p>abc</p>") (ascii "abc") i ∧
            ¬ RejectingAnyCase (windowAround (ascii "<p>abc</p>") (ascii "abc") i))) ∧
    (FirstOcc (ascii "<SCRIPT>abc") (ascii "abc") 8 ∧
      RejectingAnyCase (windowAround (ascii "<SCRIPT>abc") (ascii "abc") 8) ∧
      isValidReflectionContext (fun w => w.map lowerByte) (ascii "<SCRIPT>abc") (ascii "abc") =
        some false) ∧
    (Index (ascii "<p>abc</p>") (ascii "abc") = ((3 : Nat) : Int) ∧
      slice (ascii "<p>abc</p>") (max 0 (((3 : Nat) : Int) - 100))
          (min (ascii "<p>abc</p>").length (((3 : Nat) : Int) + (ascii "abc").length + 100)) =
        some (windowAround (ascii "<p>abc</p>") (ascii "abc") 3)) :=
  have hocc : FirstOcc (ascii "<SCRIPT>abc") (ascii "abc") 8 :=
    (index_eq_iff _ _ 8).1 (by decide)
  have hrej : RejectingAnyCase (windowAround (ascii "<SCRIPT>abc") (ascii "abc") 8) :=
    Or.inr (Or.inr (Or.inl ⟨ascii "<SCRIPT", by decide, by decide⟩))
  ⟨⟨by decide,
      (isValidReflectionContext_spec id (ascii "<p>abc</p>") (ascii "xyz")).2.2.1 (by decide)⟩,
    ⟨by decide,
      (isValidReflectionContext_spec id (ascii "<p>abc</p>") (ascii "abc")).2.2.2.1
        (by decide)⟩,
    ⟨hocc, hrej,
      (isValidReflectionContext_spec (fun w => w.map lowerByte) (ascii "<SCRIPT>abc")
        (ascii "abc")).2.2.2.2.1 (fun _ _ hv _ => hv.map lowerByte) 8 hocc hrej⟩,
    ⟨by decide,
      ((isValidReflectionContext_spec id (ascii "<p>abc</p>") (ascii "abc")).2.2.2.2.2 3
        (by decide)).2.2.2⟩⟩

/-! ## Link extraction: the list of links -/

theorem scanAttrs_none {attrs : List Attribute} (st : List Str × List Str)
    (h : firstHref attrs = none) : scanAttrs attrs st = st := by
  induction attrs with
  | nil => rfl
  | cons a rest ih =>
    obtain ⟨seen, links⟩ := st
    by_cases hk : a.Key = ascii "href"
    · simp [firstHref, List.find?, hk] at h
    · have : firstHref rest = none := by
        simpa [firstHref, List.find?, hk] using h
      simp only [scanAttrs, hk, if_false]
      exact ih this

theorem scanAttrs_some {attrs : List Attribute} (seen links : List Str) {v : Str}
    (h : firstHref attrs = some v) :
    scanAttrs attrs (seen, links) =
      if v ∈ seen then (seen, links) else (v :: seen, links ++ [v]) := by
  induction attrs with
  | nil => simp [firstHref] at h
  | cons a rest ih =>
    by_cases hk : a.Key = ascii "href"
    · have hv : a.Val = v := by
        simpa [firstHref, List.find?, hk] using h
      simp only [scanAttrs, hk, if_true, hv]
      by_cases hs : v ∈ seen <;> simp [hs]
    · have : firstHref rest = some v := by
        simpa [firstHref, List.find?, hk] using h
      simp only [scanAttrs, hk, if_false]
      exact ih this

theorem extractLoop_eq (tokens : List Token) (seen links : List Str) :
    extractLoop tokens (seen, links) = links ++ keepFirst seen (hrefValues tokens) := by
  induction tokens generalizing seen links with
  | nil => simp [extractLoop, hrefValues, keepFirst]
  | cons t rest ih =>
    by_cases he : t.tokenType = TokenType.ErrorToken
    · simp [extractLoop, hrefValues, he, keepFirst]
    · by_cases hs : t.tokenType = TokenType.StartTagToken
      · by_cases ha : t.Data = ascii "a"
        · cases hf : firstHref t.Attr with
          | none =>
            have hv : hrefValues (t :: rest) = hrefValues rest := by
              simp [hrefValues, he, hs, ha, hf, List.takeWhile, List.filterMap]
            simp only [extractLoop, he, hs, ha, if_true, if_false, hv,
              scanAttrs_none (seen, links) hf]
            exact ih seen links
          | some v =>
            have hv : hrefValues (t :: rest) = v :: hrefValues rest := by
              simp [hrefValues, he, hs, ha, hf, List.takeWhile, List.filterMap]
            simp only [extractLoop, he, hs, ha, if_true, if_false, hv,
              scanAttrs_some seen links hf, keepFirst]
            by_cases hm : v ∈ seen
            · simp only [hm, if_true]
              exact ih seen links
            · simp only [hm, if_false]
              rw [ih]
              simp
        · have hv : hrefValues (t :: rest) = hrefValues rest := by
            simp [hrefValues, he, hs, ha, List.takeWhile, List.filterMap]
          simp only [extractLoop, he, hs, ha, if_true, if_false, hv]
          exact ih seen links
      · have hv : hrefValues (t :: rest) = hrefValues rest := by
          simp [hrefValues, he, hs, List.takeWhile, List.filterMap]
        simp only [extractLoop, he, hs, if_false, hv]
        exact ih seen links

theorem mem_keepFirst (seen xs : List Str) (a : Str) :
    a ∈ keepFirst seen xs ↔ a ∈ xs ∧ a ∉ seen := by
  induction xs generalizing seen with
  | nil => simp [keepFirst]
  | cons x xs ih =>
    by_cases hx : x ∈ seen
    · simp only [keepFirst, hx, if_true, ih, List.mem_cons]
      constructor
      · rintro ⟨h1, h2⟩; exact ⟨Or.inr h1, h2⟩
      · rintro ⟨h1 | h1, h2⟩
        · exact absurd (h1 ▸ hx) h2
        · exact ⟨h1, h2⟩
    · simp only [keepFirst, hx, if_false, List.mem_cons, ih]
      constructor
      · rintro (h | ⟨h1, h2⟩)
        · exact ⟨Or.inl h, h ▸ hx⟩
        · exact ⟨Or.inr h1, fun hs => h2 (Or.inr hs)⟩
      · rintro ⟨h1 | h1, h2⟩
        · exact Or.inl h1
        · by_cases hax : a = x
          · exact Or.inl hax
          · exact Or.inr ⟨h1, fun hs => hs.elim hax h2⟩

theorem nodup_keepFirst (seen xs : List Str) : (keepFirst seen xs).Nodup := by
  induction xs generalizing seen with
  | nil => simp [keepFirst]
  | cons x xs ih =>
    by_cases hx : x ∈ seen
    · simp only [keepFirst, hx, if_true]
      exact ih seen
    · simp only [keepFirst, hx, if_false, List.nodup_cons]
      refine ⟨fun hm => ?_, ih _⟩
      exact ((mem_keepFirst _ _ _).1 hm).2 (List.mem_cons_self _ _)

theorem pairwise_keepFirst (seen xs : List Str) :
    (keepFirst seen xs).Pairwise (fun a b => xs.indexOf a < xs.indexOf b) := by
  induction xs generalizing seen with
  | nil => simp [keepFirst]
  | cons x xs ih =>
    have shift : ∀ s : List Str, x ∈ s →
        (keepFirst s xs).Pairwise
          (fun a b => (x :: xs).indexOf a < (x :: xs).indexOf b) := by
      intro s hxs
      refine (ih s).imp_of_mem ?_
      intro a b ha hb hab
      have hax : a ≠ x := fun e => ((mem_keepFirst _ _ _).1 ha).2 (e ▸ hxs)
      have hbx : b ≠ x := fun e => ((mem_keepFirst _ _ _).1 hb).2 (e ▸ hxs)
      have e1 : (x == a) = false := beq_eq_false_iff_ne.2 (Ne.symm hax)
      have e2 : (x == b) = false := beq_eq_false_iff_ne.2 (Ne.symm hbx)
      simp only [List.indexOf_cons, e1, e2, cond_false]
      omega
    by_cases hx : x ∈ seen
    · simp only [keepFirst, hx, if_true]
      exact shift seen hx
    · simp only [keepFirst, hx, if_false, List.pairwise_cons]
      refine ⟨fun b hb => ?_, shift _ (List.mem_cons_self _ _)⟩
      have hbx : b ≠ x := fun e =>
        ((mem_keepFirst _ _ _).1 hb).2 (e ▸ List.mem_cons_self _ _)
      have e1 : (x == x) = true := beq_self_eq_true x
      have e2 : (x == b) = false := beq_eq_false_iff_ne.2 (Ne.symm hbx)
      simp only [List.indexOf_cons, e1, e2, cond_false, cond_true]
      omega

/-- C9: the list that `extractLinks` returns has no duplicates, holds exactly
the values of the first `href` attribute of the `a` start tags of the page,
and lists them in the order of their first occurrence in the page. -/
theorem extractLinks_first_occurrences (tokens : List Token) :
    (extractLinks tokens).Nodup ∧
    (∀ h, h ∈ extractLinks tokens ↔ h ∈ hrefValues tokens) ∧
    (extractLinks tokens).Pairwise
      (fun a b => (hrefValues tokens).indexOf a < (hrefValues tokens).indexOf b) := by
  have he : extractLinks tokens = keepFirst [] (hrefValues tokens) := by
    simp [extractLinks, extractLoop_eq]
  rw [he]
  exact ⟨nodup_keepFirst _ _, fun h => by simp [mem_keepFirst], pairwise_keepFirst _ _⟩

/-! ## The unfiltered-character probe -/

theorem reflects_iff (fetchURL : Str → Option Str) (url marker : Str) :
    reflects fetchURL url marker = true ↔ Reflects fetchURL url marker := by
  unfold reflects Reflects
  cases fetchURL url with
  | none => simp
  | some body => simp

theorem reflects_eq_contains (fetchURL : Str → Option Str) (url marker body : Str)
    (h : fetchURL url = some body) :
    reflects fetchURL url marker = Contains body marker := by
  unfold reflects
  rw [h]
  by_cases hc : marker <:+: body
  · simp [hc, (contains_iff body marker).2 hc]
  · simp [hc, (contains_eq_false_iff body marker).2 hc]

theorem unfilteredLoop_eq (fetchURL : Str → Option Str) (rand : Nat → List Nat)
    (baseURL param : Str) (chars : List Nat) (k : Nat) (acc : List Str) :
    unfilteredLoop fetchURL rand baseURL param chars k acc =
      acc ++ ((chars.enumFrom k).filter (fun p =>
        reflects fetchURL (probeURL baseURL param (charMarker (rand p.1) p.2))
          (charMarker (rand p.1) p.2))).map (fun p => [p.2]) := by
  induction chars generalizing k acc with
  | nil => simp [unfilteredLoop]
  | cons c rest ih =>
    simp only [unfilteredLoop, List.enumFrom_cons, List.filter_cons]
    cases hf : fetchURL (probeURL baseURL param (charMarker (rand k) c)) with
    | none =>
      have : reflects fetchURL (probeURL baseURL param (charMarker (rand k) c))
          (charMarker (rand k) c) = false := by
        simp [reflects, hf]
      simp only [this]
      exact ih (k + 1) acc
    | some content =>
      rw [reflects_eq_contains _ _ _ _ hf]
      by_cases hc : Contains content (charMarker (rand k) c) = true
      · simp only [hc, if_true]
        rw [ih (k + 1) (acc ++ [[c]])]
        simp
      · have hc2 : Contains content (charMarker (rand k) c) = false := by
          simpa using hc
        simp only [hc2]
        exact ih (k + 1) acc

theorem unfilteredLoop_filter (fetchURL : Str → Option Str) (rand : Nat → List Nat)
    (baseURL param : Str) (q : Nat → Bool) (chars : List Nat) (k : Nat) (acc : List Str)
    (h : ∀ n, ∀ c ∈ chars,
      reflects fetchURL (probeURL baseURL param (charMarker (rand n) c))
        (charMarker (rand n) c) = q c) :
    unfilteredLoop fetchURL rand baseURL param chars k acc =
      acc ++ (chars.filter q).map (fun c => [c]) := by
  induction chars generalizing k acc with
  | nil => simp [unfilteredLoop]
  | cons c rest ih =>
    have hrest : ∀ n, ∀ c ∈ rest,
        reflects fetchURL (probeURL baseURL param (charMarker (rand n) c))
          (charMarker (rand n) c) = q c :=
      fun n c hc => h n c (List.mem_cons_of_mem _ hc)
    have hc := h k c (List.mem_cons_self _ _)
    simp only [unfilteredLoop, List.filter_cons]
    cases hf : fetchURL (probeURL baseURL param (charMarker (rand k) c)) with
    | none =>
      have : q c = false := by
        rw [← hc]; simp [reflects, hf]
      simp only [this]
      exact ih (k + 1) acc hrest
    | some content =>
      rw [reflects_eq_contains _ _ _ _ hf] at hc
      by_cases hq : q c = true
      · simp only [hc, hq, if_true]
        rw [ih (k + 1) (acc ++ [[c]]) hrest]
        simp
      · have hq2 : q c = false := by simpa using hq
        simp only [hc, hq2]
        exact ih (k + 1) acc hrest

theorem hexDigit_isHex (n : Nat) (h : n < 16) : IsHexDigit (hexDigit n) := by
  unfold IsHexDigit hexDigit
  split_ifs <;> omega

theorem hex_isHex (b : List Nat) : ∀ d ∈ hex b, IsHexDigit d := by
  intro d hd
  simp only [hex, List.mem_flatMap, List.mem_cons, List.mem_singleton] at hd
  obtain ⟨x, _, hx⟩ := hd
  simp only [List.not_mem_nil, or_false] at hx
  rcases hx with rfl | rfl
  · exact hexDigit_isHex _ (by omega)
  · exact hexDigit_isHex _ (by omega)

theorem hex_length (b : List Nat) : (hex b).length = 2 * b.length := by
  induction b with
  | nil => rfl
  | cons x xs ih =>
    simp only [hex, List.flatMap_cons, List.length_append, List.length_cons,
      List.length_nil] at ih ⊢
    omega

theorem mem_charMarker (r : List Nat) (c d : Nat) (h : d ∈ charMarker r c) :
    d = 112 ∨ d = 120 ∨ d = c ∨ IsHexDigit d := by
  unfold charMarker at h
  have hpx : ascii "px" = [112, 120] := by decide
  rw [hpx] at h
  simp only [List.mem_append, List.mem_cons, List.mem_singleton, List.not_mem_nil,
    or_false] at h
  rcases h with ((h | h) | h) | h
  · rcases h with h | h
    · exact Or.inl h
    · exact Or.inr (Or.inl h)
  · exact Or.inr (Or.inr (Or.inr (hex_isHex _ d h)))
  · exact Or.inr (Or.inr (Or.inl h))
  · exact Or.inr (Or.inr (Or.inr (hex_isHex _ d h)))

theorem char_mem_charMarker (r : List Nat) (c : Nat) : c ∈ charMarker r c := by
  simp [charMarker]

theorem escapeAngle_id (v : Str) (h : ∀ b ∈ v, b ≠ 60 ∧ b ≠ 62) : escapeAngle v = v := by
  induction v with
  | nil => rfl
  | cons x xs ih =>
    have hx := h x (List.mem_cons_self _ _)
    have := ih (fun b hb => h b (List.mem_cons_of_mem _ hb))
    unfold escapeAngle at this ⊢
    simp [List.flatMap_cons, hx.1, hx.2, this]

theorem escapeAngle_no_angle (v : Str) : ∀ b ∈ escapeAngle v, b ≠ 60 ∧ b ≠ 62 := by
  intro b hb
  simp only [escapeAngle, List.mem_flatMap] at hb
  obtain ⟨x, _, hx⟩ := hb
  have h1 : ascii "&lt;" = [38, 108, 116, 59] := by decide
  have h2 : ascii "&gt;" = [38, 103, 116, 59] := by decide
  rw [h1, h2] at hx
  split_ifs at hx with h60 h62
  · simp only [List.mem_cons, List.mem_singleton, List.not_mem_nil, or_false] at hx
    omega
  · simp only [List.mem_cons, List.mem_singleton, List.not_mem_nil, or_false] at hx
    omega
  · simp only [List.mem_singleton] at hx
    omega

theorem prefix_getElem? {m l : Str} (h : m <+: l) {i : Nat} (hi : i < m.length) :
    l[i]? = m[i]? := by
  obtain ⟨t, rfl⟩ := h
  exact List.getElem?_append_left hi

/-- A string `m` that starts with `p`, has an angle bracket `c` at position
`n` and no `p` after it does not occur in `pre ++ E ++ post` when it occurs
neither in `pre` nor in `post` and `E` starts with `p`, has no other `p`, no
angle bracket and more than `n` bytes. -/
theorem not_infix_around {m E pre post : Str} {c n : Nat}
    (hc : c = 60 ∨ c = 62) (hmn : m[n]? = some c) (hm0 : m[0]? = some 112)
    (hmtail : ∀ i, n < i → m[i]? ≠ some 112)
    (hE0 : E[0]? = some 112) (hEtail : ∀ o, 1 ≤ o → E[o]? ≠ some 112)
    (hEangle : ∀ b ∈ E, b ≠ 60 ∧ b ≠ 62) (hnE : n < E.length)
    (hpre : ¬ m <:+: pre) (hpost : ¬ m <:+: post) :
    ¬ m <:+: pre ++ E ++ post := by
  intro hin
  obtain ⟨k, hk⟩ := (infix_iff_prefix_drop m _).1 hin
  have hn : n < m.length := by
    rcases List.getElem?_eq_some.1 hmn with ⟨h, _⟩
    exact h
  have hget : ∀ i, i < m.length → (pre ++ E ++ post)[k + i]? = m[i]? := by
    intro i hi
    rw [← List.getElem?_drop]
    exact prefix_getElem? hk hi
  have hElen : 0 < E.length := by omega
  rcases Nat.lt_or_ge (k + n) pre.length with h1 | h1
  · rcases Nat.lt_or_ge pre.length (k + m.length) with h2 | h2
    · have hi := hget (pre.length - k) (by omega)
      have hidx : k + (pre.length - k) = pre.length := by omega
      rw [hidx, List.append_assoc, List.getElem?_append_right (Nat.le_refl _), Nat.sub_self,
        List.getElem?_append_left hElen, hE0] at hi
      exact hmtail (pre.length - k) (by omega) hi.symm
    · apply hpre
      rw [infix_iff_prefix_drop]
      refine ⟨k, ?_⟩
      rw [List.append_assoc, List.drop_append_of_le_length (by omega)] at hk
      exact List.prefix_of_prefix_length_le hk (List.prefix_append _ _)
        (by rw [List.length_drop]; omega)
  · rcases Nat.lt_or_ge (k + n) (pre.length + E.length) with h2 | h2
    · have hi := hget n hn
      rw [hmn, List.append_assoc, List.getElem?_append_right h1,
        List.getElem?_append_left (by omega)] at hi
      have hmem : c ∈ E := List.mem_iff_getElem?.2 ⟨_, hi⟩
      have := hEangle c hmem
      omega
    · rcases Nat.lt_or_ge k (pre.length + E.length) with h3 | h3
      · have hi := hget 0 (by omega)
        rw [hm0, Nat.add_zero, List.append_assoc, List.getElem?_append_right (by omega),
          List.getElem?_append_left (by omega)] at hi
        exact hEtail (k - pre.length) (by omega) hi
      · apply hpost
        rw [infix_iff_prefix_drop]
        refine ⟨k - (pre.length + E.length), ?_⟩
        have hidx : k = (pre ++ E).length + (k - (pre.length + E.length)) := by
          rw [List.length_append]; omega
        rw [hidx, List.drop_append] at hk
        exact hk

theorem escapeAngle_append (a b : Str) :
    escapeAngle (a ++ b) = escapeAngle a ++ escapeAngle b := by
  simp [escapeAngle]

theorem hex_ne_p (b : List Nat) : ∀ d ∈ hex b, d ≠ 112 ∧ d ≠ 60 ∧ d ≠ 62 := by
  intro d hd
  have := hex_isHex b d hd
  unfold IsHexDigit at this
  omega

theorem escapeAngle_hex (b : List Nat) : escapeAngle (hex b) = hex b :=
  escapeAngle_id _ (fun d hd => ⟨(hex_ne_p b d hd).2.1, (hex_ne_p b d hd).2.2⟩)

/-- The marker with an angle bracket does not occur in a page that shows its
entity encoding, unless it occurs in the text before or after it. -/
theorem marker_not_in_escaped (r : List Nat) (c : Nat) (hc : c = 60 ∨ c = 62)
    (pre post : Str) (hpre : ¬ charMarker r c <:+: pre) (hpost : ¬ charMarker r c <:+: post) :
    ¬ charMarker r c <:+: pre ++ escapeAngle (charMarker r c) ++ post := by
  have hpx : ascii "px" = [112, 120] := by decide
  have hm : charMarker r c = 112 :: 120 :: (hex (r.take 4) ++ c :: hex (r.drop 4)) := by
    simp [charMarker, hpx]
  have hamp : (escapeAngle [c] = [38, 108, 116, 59]) ∨ (escapeAngle [c] = [38, 103, 116, 59]) := by
    rcases hc with rfl | rfl
    · left; decide
    · right; decide
  have hE : escapeAngle (charMarker r c) =
      112 :: 120 :: (hex (r.take 4) ++ (escapeAngle [c] ++ hex (r.drop 4))) := by
    rw [hm]
    have h1 : (112 :: 120 :: (hex (r.take 4) ++ c :: hex (r.drop 4)) : Str) =
        [112, 120] ++ (hex (r.take 4) ++ ([c] ++ hex (r.drop 4))) := by simp
    rw [h1, escapeAngle_append, escapeAngle_append, escapeAngle_append, escapeAngle_hex,
      escapeAngle_hex]
    have h2 : escapeAngle [112, 120] = [112, 120] := by decide
    rw [h2]
    rfl
  refine not_infix_around (n := 2 + (hex (r.take 4)).length) hc ?_ ?_ ?_ ?_ ?_
    (escapeAngle_no_angle _) ?_ hpre hpost
  · rw [hm]
    have e : 2 + (hex (r.take 4)).length = (hex (r.take 4)).length + 1 + 1 := by omega
    rw [e, List.getElem?_cons_succ, List.getElem?_cons_succ,
      List.getElem?_append_right (Nat.le_refl _), Nat.sub_self]
    simp
  · rw [hm]; simp
  · intro i hi h
    rw [hm] at h
    obtain ⟨j, rfl⟩ : ∃ j, i = j + 2 + (hex (r.take 4)).length + 1 :=
      ⟨i - (2 + (hex (r.take 4)).length) - 1, by omega⟩
    have h' : (hex (r.drop 4))[j]? = some 112 := by
      have e : j + 2 + (hex (r.take 4)).length + 1 = (j + (hex (r.take 4)).length + 1) + 1 + 1 := by
        omega
      rw [e, List.getElem?_cons_succ, List.getElem?_cons_succ,
        List.getElem?_append_right (by omega)] at h
      have e2 : j + (hex (r.take 4)).length + 1 - (hex (r.take 4)).length = j + 1 := by omega
      rw [e2, List.getElem?_cons_succ] at h
      exact h
    exact (hex_ne_p _ 112 (List.mem_iff_getElem?.2 ⟨j, h'⟩)).1 rfl
  · rw [hE]; simp
  · intro o ho h
    rw [hE] at h
    obtain ⟨j, rfl⟩ : ∃ j, o = j + 1 := ⟨o - 1, by omega⟩
    rw [List.getElem?_cons_succ] at h
    have hmem : (112 : Nat) ∈ 120 :: (hex (r.take 4) ++ (escapeAngle [c] ++ hex (r.drop 4))) :=
      List.mem_iff_getElem?.2 ⟨j, h⟩
    simp only [List.mem_cons, List.mem_append] at hmem
    rcases hmem with h | h | h | h
    · omega
    · exact (hex_ne_p _ 112 h).1 rfl
    · rcases hamp with e | e <;> rw [e] at h <;> simp at h
    · exact (hex_ne_p _ 112 h).1 rfl
  · rw [hE]
    have hlen : (escapeAngle [c]).length = 4 := by
      rcases hamp with e | e <;> rw [e] <;> rfl
    simp only [List.length_cons, List.length_append, hlen]
    omega

theorem probeURL_eq (baseURL param marker : Str) :
    probeURL baseURL param marker = baseURL ++ [63] ++ param ++ [61] ++ marker := by
  have h1 : ascii "?" = [63] := by decide
  have h2 : ascii "=" = [61] := by decide
  simp [probeURL, h1, h2]

theorem charMarker_eq (r : List Nat) (c : Nat) :
    charMarker r c = [112, 120] ++ hex (r.take 4) ++ [c] ++ hex (r.drop 4) := by
  have h : ascii "px" = [112, 120] := by decide
  simp [charMarker, h]

theorem reflects_echo (fetchURL : Str → Option Str) (url m pre post : Str)
    (h : fetchURL url = some (pre ++ m ++ post)) : reflects fetchURL url m = true := by
  rw [reflects_eq_contains _ _ _ _ h, contains_iff]
  exact ⟨pre, post, rfl⟩

/-- C2: `checkUnfilteredChars` returns, as one-character strings and in the
order of `specialChars`, exactly the characters `c` for which the fetch of
`baseURL?param=px<hex>c<hex>` succeeds with a body that contains the whole
marker `px<hex>c<hex>` (8 hexadecimal digits on each side for 8 random bytes);
a server that echoes the value gives all 11 characters, and a server that
entity-encodes `<` and `>` (as `&lt;` and `&gt;`, nothing else) in the value,
on a page that does not hold the two markers with `<` and `>` elsewhere, gives
the other 9. -/
theorem checkUnfilteredChars_spec (fetchURL : Str → Option Str) (rand : Nat → List Nat)
    (baseURL param : Str) :
    specialChars = [39, 60, 62, 36, 124, 40, 41, 96, 59, 123, 125] ∧
    hex [0, 171, 255] = [48, 48, 97, 98, 102, 102] ∧
    checkUnfilteredChars fetchURL rand baseURL param =
      (([(0, 39), (1, 60), (2, 62), (3, 36), (4, 124), (5, 40), (6, 41), (7, 96), (8, 59),
          (9, 123), (10, 125)] : List (Nat × Nat)).filter (fun p =>
        reflects fetchURL
          (baseURL ++ [63] ++ param ++ [61] ++
            ([112, 120] ++ hex ((rand p.1).take 4) ++ [p.2] ++ hex ((rand p.1).drop 4)))
          ([112, 120] ++ hex ((rand p.1).take 4) ++ [p.2] ++ hex ((rand p.1).drop 4)))).map
        (fun p => [p.2]) ∧
    (∀ url m, reflects fetchURL url m = true ↔ ∃ body, fetchURL url = some body ∧ m <:+: body) ∧
    (checkUnfilteredChars fetchURL rand baseURL param).Sublist
      [[39], [60], [62], [36], [124], [40], [41], [96], [59], [123], [125]] ∧
    (checkUnfilteredChars fetchURL rand baseURL param).Nodup ∧
    (∀ k, (rand k).length = 8 →
      (hex ((rand k).take 4)).length = 8 ∧ (hex ((rand k).drop 4)).length = 8 ∧
      ∀ d ∈ hex ((rand k).take 4) ++ hex ((rand k).drop 4),
        (48 ≤ d ∧ d ≤ 57) ∨ (97 ≤ d ∧ d ≤ 102)) ∧
    (∀ pre post : Str,
      (∀ v, fetchURL (baseURL ++ [63] ++ param ++ [61] ++ v) = some (pre ++ v ++ post)) →
        checkUnfilteredChars fetchURL rand baseURL param =
          [[39], [60], [62], [36], [124], [40], [41], [96], [59], [123], [125]]) ∧
    (∀ pre post : Str,
      ¬ ([112, 120] ++ hex ((rand 1).take 4) ++ [60] ++ hex ((rand 1).drop 4)) <:+: pre →
      ¬ ([112, 120] ++ hex ((rand 1).take 4) ++ [60] ++ hex ((rand 1).drop 4)) <:+: post →
      ¬ ([112, 120] ++ hex ((rand 2).take 4) ++ [62] ++ hex ((rand 2).drop 4)) <:+: pre →
      ¬ ([112, 120] ++ hex ((rand 2).take 4) ++ [62] ++ hex ((rand 2).drop 4)) <:+: post →
      (∀ v, fetchURL (baseURL ++ [63] ++ param ++ [61] ++ v) =
        some (pre ++ escapeAngle v ++ post)) →
        checkUnfilteredChars fetchURL rand baseURL param =
          [[39], [36], [124], [40], [41], [96], [59], [123], [125]]) ∧
    escapeAngle [97, 60, 98, 62, 38] = "a&lt;b&gt;&".toList.map Char.toNat := by
  have hsc : specialChars = [39, 60, 62, 36, 124, 40, 41, 96, 59, 123, 125] := by decide
  have heq : checkUnfilteredChars fetchURL rand baseURL param =
      (([(0, 39), (1, 60), (2, 62), (3, 36), (4, 124), (5, 40), (6, 41), (7, 96), (8, 59),
          (9, 123), (10, 125)] : List (Nat × Nat)).filter (fun p =>
        reflects fetchURL
          (baseURL ++ [63] ++ param ++ [61] ++
            ([112, 120] ++ hex ((rand p.1).take 4) ++ [p.2] ++ hex ((rand p.1).drop 4)))
          ([112, 120] ++ hex ((rand p.1).take 4) ++ [p.2] ++ hex ((rand p.1).drop 4)))).map
        (fun p => [p.2]) := by
    have henum : List.enumFrom 0 specialChars =
        [(0, 39), (1, 60), (2, 62), (3, 36), (4, 124), (5, 40), (6, 41), (7, 96), (8, 59),
          (9, 123), (10, 125)] := by
      rw [hsc]; rfl
    rw [checkUnfilteredChars, unfilteredLoop_eq, henum, List.nil_append]
    simp only [probeURL_eq, charMarker_eq]
  have hsub : (checkUnfilteredChars fetchURL rand baseURL param).Sublist
      [[39], [60], [62], [36], [124], [40], [41], [96], [59], [123], [125]] := by
    rw [heq]
    exact (List.filter_sublist _).map _
  refine ⟨hsc, by decide, heq, ?_, hsub, hsub.nodup (by decide), ?_, ?_, ?_, by decide⟩
  · intro url m
    exact reflects_iff fetchURL url m
  · intro k hlen
    refine ⟨?_, ?_, ?_⟩
    · rw [hex_length, List.length_take]; omega
    · rw [hex_length, List.length_drop]; omega
    · intro d hd
      rcases List.mem_append.1 hd with h | h
      · exact hex_isHex _ d h
      · exact hex_isHex _ d h
  · intro pre post hecho
    rw [heq]
    have hall : ∀ p : Nat × Nat, reflects fetchURL
        (baseURL ++ [63] ++ param ++ [61] ++
          ([112, 120] ++ hex ((rand p.1).take 4) ++ [p.2] ++ hex ((rand p.1).drop 4)))
        ([112, 120] ++ hex ((rand p.1).take 4) ++ [p.2] ++ hex ((rand p.1).drop 4)) = true :=
      fun p => reflects_echo _ _ _ pre post (hecho _)
    simp only [hall, List.filter_true]
    rfl
  · intro pre post hp1 hq1 hp2 hq2 henc
    rw [heq]
    have hpos : ∀ k c, c ≠ 60 → c ≠ 62 → reflects fetchURL
        (baseURL ++ [63] ++ param ++ [61] ++
          ([112, 120] ++ hex ((rand k).take 4) ++ [c] ++ hex ((rand k).drop 4)))
        ([112, 120] ++ hex ((rand k).take 4) ++ [c] ++ hex ((rand k).drop 4)) = true := by
      intro k c h60 h62
      refine reflects_echo _ _ _ pre post ?_
      rw [henc]
      have hid : escapeAngle ([112, 120] ++ hex ((rand k).take 4) ++ [c] ++
          hex ((rand k).drop 4)) =
          [112, 120] ++ hex ((rand k).take 4) ++ [c] ++ hex ((rand k).drop 4) := by
        apply escapeAngle_id
        intro b hb
        rw [← charMarker_eq] at hb
        rcases mem_charMarker _ _ _ hb with h | h | h | h
        · omega
        · omega
        · rw [h]; exact ⟨h60, h62⟩
        · unfold IsHexDigit at h; omega
      rw [hid]
    have hneg : ∀ k c, c = 60 ∨ c = 62 →
        ¬ ([112, 120] ++ hex ((rand k).take 4) ++ [c] ++ hex ((rand k).drop 4)) <:+: pre →
        ¬ ([112, 120] ++ hex ((rand k).take 4) ++ [c] ++ hex ((rand k).drop 4)) <:+: post →
        reflects fetchURL
          (baseURL ++ [63] ++ param ++ [61] ++
            ([112, 120] ++ hex ((rand k).take 4) ++ [c] ++ hex ((rand k).drop 4)))
          ([112, 120] ++ hex ((rand k).take 4) ++ [c] ++ hex ((rand k).drop 4)) = false := by
      intro k c hc hp hq
      rw [reflects_eq_contains _ _ _ _ (henc _), contains_eq_false_iff]
      rw [← charMarker_eq] at hp hq ⊢
      exact marker_not_in_escaped _ c hc pre post hp hq
    have h0 := hpos 0 39 (by decide) (by decide)
    have h1 := hneg 1 60 (Or.inl rfl) hp1 hq1
    have h2 := hneg 2 62 (Or.inr rfl) hp2 hq2
    have h3 := hpos 3 36 (by decide) (by decide)
    have h4 := hpos 4 124 (by decide) (by decide)
    have h5 := hpos 5 40 (by decide) (by decide)
    have h6 := hpos 6 41 (by decide) (by decide)
    have h7 := hpos 7 96 (by decide) (by decide)
    have h8 := hpos 8 59 (by decide) (by decide)
    have h9 := hpos 9 123 (by decide) (by decide)
    have h10 := hpos 10 125 (by decide) (by decide)
    simp only [List.filter_cons, List.filter_nil, h0, h1, h2, h3, h4, h5, h6, h7, h8, h9, h10]
    rfl

theorem checkUnfilteredChars_spec_witness :
    ((∀ v, echoServer (ascii "http://t/s" ++ [63] ++ ascii "q" ++ [61] ++ v) =
        some (ascii "<html><body><p>Results for " ++ v ++ ascii "</p></body></html>")) ∧
      checkUnfilteredChars echoServer (fun k => sampleRand (k + 2)) (ascii "http://t/s")
          (ascii "q") =
        [[39], [60], [62], [36], [124], [40], [41], [96], [59], [123], [125]]) ∧
    ((¬ ([112, 120] ++ hex (((fun k => sampleRand (k + 2)) 1).take 4) ++ [60] ++
          hex (((fun k => sampleRand (k + 2)) 1).drop 4)) <:+:
          ascii "<html><body><p>Results for " ∧
      ¬ ([112, 120] ++ hex (((fun k => sampleRand (k + 2)) 1).take 4) ++ [60] ++
          hex (((fun k => sampleRand (k + 2)) 1).drop 4)) <:+: ascii "</p></body></html>" ∧
      ¬ ([112, 120] ++ hex (((fun k => sampleRand (k + 2)) 2).take 4) ++ [62] ++
          hex (((fun k => sampleRand (k + 2)) 2).drop 4)) <:+:
          ascii "<html><body><p>Results for " ∧
      ¬ ([112, 120] ++ hex (((fun k => sampleRand (k + 2)) 2).take 4) ++ [62] ++
          hex (((fun k => sampleRand (k + 2)) 2).drop 4)) <:+: ascii "</p></body></html>" ∧
      ∀ v, encodingServer (ascii "http://t/s" ++ [63] ++ ascii "q" ++ [61] ++ v) =
        some (ascii "<html><body><p>Results for " ++ escapeAngle v ++
          ascii "</p></body></html>")) ∧
      checkUnfilteredChars encodingServer (fun k => sampleRand (k + 2)) (ascii "http://t/s")
          (ascii "q") =
        [[39], [36], [124], [40], [41], [96], [59], [123], [125]]) ∧
    (((fun k => sampleRand (k + 2)) 0).length = 8 ∧
      (hex (((fun k => sampleRand (k + 2)) 0).take 4)).length = 8 ∧
      (hex (((fun k => sampleRand (k + 2)) 0).drop 4)).length = 8) :=
  have hecho : ∀ v, echoServer (ascii "http://t/s" ++ [63] ++ ascii "q" ++ [61] ++ v) =
      some (ascii "<html><body><p>Results for " ++ v ++ ascii "</p></body></html>") :=
    fun _ => rfl
  have henc : ∀ v, encodingServer (ascii "http://t/s" ++ [63] ++ ascii "q" ++ [61] ++ v) =
      some (ascii "<html><body><p>Results for " ++ escapeAngle v ++
        ascii "</p></body></html>") :=
    fun _ => rfl
  have h1 : ¬ ([112, 120] ++ hex (((fun k => sampleRand (k + 2)) 1).take 4) ++ [60] ++
      hex (((fun k => sampleRand (k + 2)) 1).drop 4)) <:+:
      ascii "<html><body><p>Results for " := by decide
  have h2 : ¬ ([112, 120] ++ hex (((fun k => sampleRand (k + 2)) 1).take 4) ++ [60] ++
      hex (((fun k => sampleRand (k + 2)) 1).drop 4)) <:+: ascii "</p></body></html>" := by
    decide
  have h3 : ¬ ([112, 120] ++ hex (((fun k => sampleRand (k + 2)) 2).take 4) ++ [62] ++
      hex (((fun k => sampleRand (k + 2)) 2).drop 4)) <:+:
      ascii "<html><body><p>Results for " := by decide
  have h4 : ¬ ([112, 120] ++ hex (((fun k => sampleRand (k + 2)) 2).take 4) ++ [62] ++
      hex (((fun k => sampleRand (k + 2)) 2).drop 4)) <:+: ascii "</p></body></html>" := by
    decide
  ⟨⟨hecho,
      (checkUnfilteredChars_spec echoServer (fun k => sampleRand (k + 2)) (ascii "http://t/s")
        (ascii "q")).2.2.2.2.2.2.2.1 _ _ hecho⟩,
    ⟨⟨h1, h2, h3, h4, henc⟩,
      (checkUnfilteredChars_spec encodingServer (fun k => sampleRand (k + 2))
        (ascii "http://t/s") (ascii "q")).2.2.2.2.2.2.2.2.1 _ _ h1 h2 h3 h4 henc⟩,
    ⟨rfl,
      ((checkUnfilteredChars_spec echoServer (fun k => sampleRand (k + 2)) (ascii "http://t/s")
        (ascii "q")).2.2.2.2.2.2.1 0 rfl).1,
      ((checkUnfilteredChars_spec echoServer (fun k => sampleRand (k + 2)) (ascii "http://t/s")
        (ascii "q")).2.2.2.2.2.2.1 0 rfl).2.1⟩⟩

/-! ## The two-marker verification -/

theorem reflects_false_iff (fetchURL : Str → Option Str) (url marker : Str) :
    reflects fetchURL url marker = false ↔ ¬ Reflects fetchURL url marker := by
  rw [← reflects_iff]; simp

theorem checkReflection_eq (fetchURL : Str → Option Str) (rand : Nat → List Nat)
    (baseURL param : Str) :
    checkReflection fetchURL rand baseURL param =
      if reflects fetchURL (probeURL baseURL param (hex (rand 0))) (hex (rand 0)) = true ∧
          reflects fetchURL (probeURL baseURL param (hex (rand 1))) (hex (rand 1)) = true ∧
          checkUnfilteredChars fetchURL (fun k => rand (k + 2)) baseURL param ≠ [] then
        [baseURL ++ ascii "?" ++ param ++ ascii "=REFLECTED (unfiltered:" ++
          Join (checkUnfilteredChars fetchURL (fun k => rand (k + 2)) baseURL param) ++
          ascii " )"]
      else [] := by
  unfold checkReflection
  cases h1 : fetchURL (probeURL baseURL param (hex (rand 0))) with
  | none => simp [reflects, h1]
  | some content =>
    rw [reflects_eq_contains _ _ _ _ h1]
    by_cases c1 : Contains content (hex (rand 0)) = true
    · cases h2 : fetchURL (probeURL baseURL param (hex (rand 1))) with
      | none => simp [reflects, h1, h2, c1]
      | some verifyContent =>
        rw [reflects_eq_contains _ _ _ _ h2]
        by_cases c2 : Contains verifyContent (hex (rand 1)) = true
        · by_cases c3 : checkUnfilteredChars fetchURL (fun k => rand (k + 2)) baseURL param = []
          · simp [h1, h2, c1, c2, c3]
          · have : 0 < (checkUnfilteredChars fetchURL (fun k => rand (k + 2))
                baseURL param).length := List.length_pos.2 c3
            simp [h1, h2, c1, c2, c3, this]
        · simp [h1, h2, c1, c2]
    · simp [h1, c1]

theorem checkReflection_cases (fetchURL : Str → Option Str) (rand : Nat → List Nat)
    (baseURL param : Str) :
    (checkReflection fetchURL rand baseURL param =
        [baseURL ++ ascii "?" ++ param ++ ascii "=REFLECTED (unfiltered:" ++
          Join (checkUnfilteredChars fetchURL (fun k => rand (k + 2)) baseURL param) ++
          ascii " )"] ↔
      Reflects fetchURL (probeURL baseURL param (hex (rand 0))) (hex (rand 0)) ∧
      Reflects fetchURL (probeURL baseURL param (hex (rand 1))) (hex (rand 1)) ∧
      checkUnfilteredChars fetchURL (fun k => rand (k + 2)) baseURL param ≠ []) ∧
    (checkReflection fetchURL rand baseURL param = [] ↔
      ¬ (Reflects fetchURL (probeURL baseURL param (hex (rand 0))) (hex (rand 0)) ∧
        Reflects fetchURL (probeURL baseURL param (hex (rand 1))) (hex (rand 1)) ∧
        checkUnfilteredChars fetchURL (fun k => rand (k + 2)) baseURL param ≠ [])) ∧
    (Reflects fetchURL (probeURL baseURL param (hex (rand 0))) (hex (rand 0)) →
      ¬ Reflects fetchURL (probeURL baseURL param (hex (rand 1))) (hex (rand 1)) →
      checkReflection fetchURL rand baseURL param = []) := by
  have key := checkReflection_eq fetchURL rand baseURL param
  by_cases hc : Reflects fetchURL (probeURL baseURL param (hex (rand 0))) (hex (rand 0)) ∧
      Reflects fetchURL (probeURL baseURL param (hex (rand 1))) (hex (rand 1)) ∧
      checkUnfilteredChars fetchURL (fun k => rand (k + 2)) baseURL param ≠ []
  · rw [if_pos ⟨(reflects_iff _ _ _).2 hc.1, (reflects_iff _ _ _).2 hc.2.1, hc.2.2⟩] at key
    rw [key]
    refine ⟨⟨fun _ => hc, fun _ => rfl⟩, ⟨fun h => by simp at h, fun h => absurd hc h⟩, ?_⟩
    intro _ h2
    exact absurd hc.2.1 h2
  · rw [if_neg (fun hb => hc ⟨(reflects_iff _ _ _).1 hb.1, (reflects_iff _ _ _).1 hb.2.1,
      hb.2.2⟩)] at key
    rw [key]
    refine ⟨⟨fun h => by simp at h, fun h => absurd h hc⟩, ⟨fun _ => hc, fun _ => rfl⟩, ?_⟩
    intro _ _
    rfl

/-- C1: `checkReflection` prints the one line
`<baseURL>?<param>=REFLECTED (unfiltered:<chars> )`, `<chars>` being the
concatenation of the list that `checkUnfilteredChars` returns, exactly when the
fetch of `<baseURL>?<param>=M1` and the fetch of `<baseURL>?<param>=M2` both
succeed with a body that contains the marker and that list is not empty;
otherwise it prints nothing, in particular when only the first marker is
reflected. The markers are the hexadecimal forms of the two random values. -/
theorem checkReflection_spec (fetchURL : Str → Option Str) (rand : Nat → List Nat)
    (baseURL param : Str) :
    hex [0, 171, 255] = [48, 48, 97, 98, 102, 102] ∧
    (checkReflection fetchURL rand baseURL param =
        [baseURL ++ [63] ++ param ++ "=REFLECTED (unfiltered:".toList.map Char.toNat ++
          (checkUnfilteredChars fetchURL (fun k => rand (k + 2)) baseURL param).flatten ++
          " )".toList.map Char.toNat] ↔
      (∃ body, fetchURL (baseURL ++ [63] ++ param ++ [61] ++ hex (rand 0)) = some body ∧
        hex (rand 0) <:+: body) ∧
      (∃ body, fetchURL (baseURL ++ [63] ++ param ++ [61] ++ hex (rand 1)) = some body ∧
        hex (rand 1) <:+: body) ∧
      checkUnfilteredChars fetchURL (fun k => rand (k + 2)) baseURL param ≠ []) ∧
    (checkReflection fetchURL rand baseURL param = [] ↔
      ¬ ((∃ body, fetchURL (baseURL ++ [63] ++ param ++ [61] ++ hex (rand 0)) = some body ∧
          hex (rand 0) <:+: body) ∧
        (∃ body, fetchURL (baseURL ++ [63] ++ param ++ [61] ++ hex (rand 1)) = some body ∧
          hex (rand 1) <:+: body) ∧
        checkUnfilteredChars fetchURL (fun k => rand (k + 2)) baseURL param ≠ [])) ∧
    ((∃ body, fetchURL (baseURL ++ [63] ++ param ++ [61] ++ hex (rand 0)) = some body ∧
        hex (rand 0) <:+: body) →
      ¬ (∃ body, fetchURL (baseURL ++ [63] ++ param ++ [61] ++ hex (rand 1)) = some body ∧
        hex (rand 1) <:+: body) →
      checkReflection fetchURL rand baseURL param = []) := by
  have h := checkReflection_cases fetchURL rand baseURL param
  have h63 : ascii "?" = [63] := by decide
  simp only [probeURL_eq, Reflects, Join, h63] at h
  simp only [ascii] at h
  exact ⟨by decide, h⟩

set_option maxRecDepth 20000 in
theorem checkReflection_spec_witness :
    (((∃ body, echoServer (ascii "http://t/s" ++ [63] ++ ascii "q" ++ [61] ++
          hex (sampleRand 0)) = some body ∧ hex (sampleRand 0) <:+: body) ∧
        (∃ body, echoServer (ascii "http://t/s" ++ [63] ++ ascii "q" ++ [61] ++
          hex (sampleRand 1)) = some body ∧ hex (sampleRand 1) <:+: body) ∧
        checkUnfilteredChars echoServer (fun k => sampleRand (k + 2)) (ascii "http://t/s")
          (ascii "q") ≠ []) ∧
      checkReflection echoServer sampleRand (ascii "http://t/s") (ascii "q") =
        ["http://t/s?q=REFLECTED (unfiltered:\x27<>$|()\x60;\x7b\x7d )".toList.map
          Char.toNat]) ∧
    ((∃ body, staticServer (ascii "http://t/s" ++ [63] ++ ascii "q" ++ [61] ++
          hex (sampleRand 0)) = some body ∧ hex (sampleRand 0) <:+: body) ∧
      ¬ (∃ body, staticServer (ascii "http://t/s" ++ [63] ++ ascii "q" ++ [61] ++
          hex (sampleRand 1)) = some body ∧ hex (sampleRand 1) <:+: body) ∧
      checkReflection staticServer sampleRand (ascii "http://t/s") (ascii "q") = []) :=
  have e1 : ∃ body, echoServer (ascii "http://t/s" ++ [63] ++ ascii "q" ++ [61] ++
      hex (sampleRand 0)) = some body ∧ hex (sampleRand 0) <:+: body :=
    ⟨_, rfl, by decide⟩
  have e2 : ∃ body, echoServer (ascii "http://t/s" ++ [63] ++ ascii "q" ++ [61] ++
      hex (sampleRand 1)) = some body ∧ hex (sampleRand 1) <:+: body :=
    ⟨_, rfl, by decide⟩
  have e3 : checkUnfilteredChars echoServer (fun k => sampleRand (k + 2)) (ascii "http://t/s")
      (ascii "q") ≠ [] := by decide
  have s1 : ∃ body, staticServer (ascii "http://t/s" ++ [63] ++ ascii "q" ++ [61] ++
      hex (sampleRand 0)) = some body ∧ hex (sampleRand 0) <:+: body :=
    ⟨_, rfl, by decide⟩
  have s2 : ¬ (∃ body, staticServer (ascii "http://t/s" ++ [63] ++ ascii "q" ++ [61] ++
      hex (sampleRand 1)) = some body ∧ hex (sampleRand 1) <:+: body) :=
    fun ⟨_, hb, hin⟩ => absurd ((Option.some.inj hb).symm ▸ hin) (by decide)
  ⟨⟨⟨e1, e2, e3⟩,
      ((checkReflection_spec echoServer sampleRand (ascii "http://t/s") (ascii "q")).2.1.2
        ⟨e1, e2, e3⟩).trans (by decide)⟩,
    ⟨s1, s2,
      (checkReflection_spec staticServer sampleRand (ascii "http://t/s") (ascii "q")).2.2.2
        s1 s2⟩⟩

/-! ## The parameter workers: one probe per name -/

theorem foldl_workerStep (received seen probed : List Str) :
    (received.foldl workerStep (seen, probed)).2 = probed ++ keepFirst seen received := by
  induction received generalizing seen probed with
  | nil => simp [keepFirst]
  | cons x xs ih =>
    by_cases hx : x ∈ seen
    · simp only [List.foldl_cons, workerStep, hx, not_true_eq_false, if_false, keepFirst,
        if_true]
      exact ih seen probed
    · simp only [List.foldl_cons, workerStep, hx, not_false_eq_true, if_true, keepFirst,
        if_false]
      rw [ih]
      simp

/-- C4: for every sequence of names received from the queue, the list of the
names for which the workers call `checkReflection` has no duplicates and has
the same elements as the sequence received. -/
theorem workerLoop_probes_once (received : List Str) :
    (workerLoop received).2.Nodup ∧
    (∀ p, p ∈ (workerLoop received).2 ↔ p ∈ received) := by
  have he : (workerLoop received).2 = keepFirst [] received := by
    simp [workerLoop, foldl_workerStep]
  rw [he]
  exact ⟨nodup_keepFirst [] received, fun p => by simp [mem_keepFirst]⟩

/-! ## The crawl: how a call continues the state -/

theorem Extends.refl (P : Str × Nat → Prop) (c : Crawler) : Extends P c c where
  count_le := Nat.le_refl _
  count_cap := fun h => h
  paid := by omega
  visited_mono := fun _ h => h
  visited_nodup := fun h => h
  fetched_ext := ⟨[], by simp⟩
  offered_ext := ⟨[], by simp⟩

theorem Extends.trans {P : Str × Nat → Prop} {c c₁ c₂ : Crawler}
    (h₁ : Extends P c c₁) (h₂ : Extends P c₁ c₂) : Extends P c c₂ where
  count_le := Nat.le_trans h₁.count_le h₂.count_le
  count_cap := fun h => h₂.count_cap (h₁.count_cap h)
  paid := by
    have := h₁.paid
    have := h₂.paid
    omega
  visited_mono := fun u h => h₂.visited_mono u (h₁.visited_mono u h)
  visited_nodup := fun h => h₂.visited_nodup (h₁.visited_nodup h)
  fetched_ext := by
    obtain ⟨a₁, e₁, n₁, m₁⟩ := h₁.fetched_ext
    obtain ⟨a₂, e₂, n₂, m₂⟩ := h₂.fetched_ext
    refine ⟨a₁ ++ a₂, by rw [e₂, e₁, List.append_assoc], ?_, ?_⟩
    · rw [List.map_append, List.nodup_append]
      refine ⟨n₁, n₂, ?_⟩
      intro u hu₁ hu₂
      obtain ⟨x, hx, rfl⟩ := List.mem_map.1 hu₁
      obtain ⟨y, hy, hxy⟩ := List.mem_map.1 hu₂
      exact (m₂ y hy).1 (hxy ▸ (m₁ x hx).2.1)
    · intro x hx
      rcases List.mem_append.1 hx with h | h
      · exact ⟨(m₁ x h).1, h₂.visited_mono _ (m₁ x h).2.1, (m₁ x h).2.2⟩
      · exact ⟨fun hv => (m₂ x h).1 (h₁.visited_mono _ hv), (m₂ x h).2.1, (m₂ x h).2.2⟩
  offered_ext := by
    obtain ⟨o₁, e₁⟩ := h₁.offered_ext
    obtain ⟨o₂, e₂⟩ := h₂.offered_ext
    exact ⟨o₁ ++ o₂, by rw [e₂, e₁, List.append_assoc]⟩

theorem Extends.mono {P Q : Str × Nat → Prop} {c c' : Crawler}
    (hPQ : ∀ x, P x → Q x) (h : Extends P c c') : Extends Q c c' where
  count_le := h.count_le
  count_cap := h.count_cap
  paid := h.paid
  visited_mono := h.visited_mono
  visited_nodup := h.visited_nodup
  fetched_ext := by
    obtain ⟨a, e, n, m⟩ := h.fetched_ext
    exact ⟨a, e, n, fun x hx => ⟨(m x hx).1, (m x hx).2.1, hPQ x (m x hx).2.2⟩⟩
  offered_ext := h.offered_ext

theorem Extends.offer (P : Str × Nat → Prop) (params : List Str) (c : Crawler) :
    Extends P c (offer params c) where
  count_le := Nat.le_refl _
  count_cap := fun h => h
  paid := by
    show c.visitedURLs.length + c.urlCount ≤ c.urlCount + c.visitedURLs.length
    omega
  visited_mono := fun _ h => h
  visited_nodup := fun h => h
  fetched_ext := ⟨[], by simp [Recx.offer]⟩
  offered_ext := ⟨params, rfl⟩

theorem Extends.release (P : Str × Nat → Prop) (c : Crawler) :
    Extends P c (release c) where
  count_le := Nat.le_refl _
  count_cap := fun h => h
  paid := by
    show c.visitedURLs.length + c.urlCount ≤ c.urlCount + c.visitedURLs.length
    omega
  visited_mono := fun _ h => h
  visited_nodup := fun h => h
  fetched_ext := ⟨[], by simp [Recx.release]⟩
  offered_ext := ⟨[], by simp [Recx.release]⟩

/-- The state after the steps of `crawlPage` from `shouldCrawl` to the
fetch, for a page that was not visited. -/
theorem Extends.claim (P : Str × Nat → Prop) (c : Crawler) (pageURL : Str) (depth : Nat)
    (hcount : ¬ c.urlCount ≥ maxURLsPerDomain) (hnew : pageURL ∉ c.visitedURLs)
    (hP : P (pageURL, depth)) :
    Extends P c
      { visitedURLs := pageURL :: c.visitedURLs, semaphore := c.semaphore + 1,
        urlCount := c.urlCount + 1, fetched := c.fetched ++ [(pageURL, depth)],
        offered := c.offered } where
  count_le := Nat.le_succ _
  count_cap := fun _ => by
    show c.urlCount + 1 ≤ maxURLsPerDomain
    omega
  paid := by
    show (pageURL :: c.visitedURLs).length + c.urlCount ≤ c.urlCount + 1 + c.visitedURLs.length
    simp only [List.length_cons]
    omega
  visited_mono := fun _ h => List.mem_cons_of_mem _ h
  visited_nodup := fun h => List.nodup_cons.2 ⟨hnew, h⟩
  fetched_ext := ⟨[(pageURL, depth)], rfl, by simp, by
    intro x hx
    rw [List.mem_singleton] at hx
    subst hx
    exact ⟨hnew, List.mem_cons_self _ _, hP⟩⟩
  offered_ext := ⟨[], by simp⟩

theorem linkLoop_extends (e : Env) (child : Str → Crawler → Option Crawler)
    (Q : Str × Nat → Prop) (links : List Str)
    (hchild : ∀ href fullURL c c', href ∈ links → e.Parse href = some fullURL →
      isSameDomain e fullURL.String = true → child fullURL.String c = some c' →
      c'.semaphore = c.semaphore ∧ Extends Q c c') :
    ∀ c c', linkLoop e child links c = some c' →
      c'.semaphore = c.semaphore ∧ Extends Q c c' := by
  induction links with
  | nil =>
    intro c c' h
    simp only [linkLoop, Option.some.injEq] at h
    subst h
    exact ⟨rfl, Extends.refl _ _⟩
  | cons href rest ih =>
    intro c c' h
    have ih' := ih (fun href' fu c c' hm =>
      hchild href' fu c c' (List.mem_cons_of_mem _ hm))
    cases hp : e.Parse href with
    | none =>
      simp only [linkLoop, hp] at h
      exact ih' c c' h
    | some fullURL =>
      simp only [linkLoop, hp] at h
      by_cases hs : isSameDomain e fullURL.String = true
      · simp only [hs, if_true] at h
        cases hc : child fullURL.String c with
        | none => simp [hc] at h
        | some c₁ =>
          simp only [hc] at h
          obtain ⟨s₁, x₁⟩ := hchild href fullURL c c₁ (List.mem_cons_self _ _) hp hs hc
          by_cases hq : fullURL.RawQuery = []
          · simp only [hq, ne_eq, not_true_eq_false, if_false] at h
            obtain ⟨s₂, x₂⟩ := ih' _ _ h
            exact ⟨s₂.trans s₁, x₁.trans x₂⟩
          · simp only [ne_eq, hq, not_false_eq_true, if_true] at h
            obtain ⟨s₂, x₂⟩ := ih' _ _ h
            exact ⟨s₂.trans s₁, x₁.trans ((Extends.offer Q _ _).trans x₂)⟩
      · simp only [hs, if_false] at h
        by_cases hq : fullURL.RawQuery = []
        · simp only [hq, ne_eq, not_true_eq_false, if_false] at h
          exact ih' _ _ h
        · simp only [ne_eq, hq, not_false_eq_true, if_true] at h
          obtain ⟨s₂, x₂⟩ := ih' _ _ h
          exact ⟨s₂, (Extends.offer Q _ _).trans x₂⟩

theorem reached_of_child {e : Env} {pageURL u : Str} {depth : Nat} (hop : Hop e pageURL u)
    (x : Str × Nat) (h : Reached e u (depth + 1) x) : Reached e pageURL depth x := by
  obtain ⟨h₁, h₂, h₃⟩ := h
  refine ⟨by omega, h₂, ?_⟩
  have : x.2 - depth = (x.2 - (depth + 1)) + 1 := by omega
  rw [this]
  exact ⟨u, hop, h₃⟩

theorem crawlPage_extends (e : Env) (fuel : Nat) :
    ∀ (pageURL : Str) (depth : Nat) (c c' : Crawler),
      crawlPage e fuel pageURL depth c = some c' →
      c'.semaphore = c.semaphore ∧ Extends (Reached e pageURL depth) c c' := by
  induction fuel with
  | zero =>
    intro pageURL depth c c' h
    simp [crawlPage] at h
  | succ fuel ih =>
    intro pageURL depth c c' h
    unfold crawlPage at h
    by_cases hd : depth > maxDepth
    · simp only [hd, if_true, Option.some.injEq] at h
      subst h
      exact ⟨rfl, Extends.refl _ _⟩
    · simp only [hd, if_false] at h
      by_cases hcount : c.urlCount ≥ maxURLsPerDomain
      · simp only [shouldCrawl, hcount, if_true, Option.some.injEq] at h
        subst h
        exact ⟨rfl, Extends.refl _ _⟩
      · simp only [shouldCrawl, hcount, if_false] at h
        by_cases hsem : c.semaphore ≥ maxWorkers
        · simp [hsem] at h
        · simp only [hsem, if_false] at h
          by_cases hv : pageURL ∈ c.visitedURLs
          · simp only [hv, if_true, Option.some.injEq] at h
            subst h
            refine ⟨by simp [release], ?_⟩
            exact
              { count_le := Nat.le_succ _
                count_cap := fun _ => by
                  show c.urlCount + 1 ≤ maxURLsPerDomain
                  omega
                paid := by
                  show c.visitedURLs.length + c.urlCount ≤ c.urlCount + 1 + c.visitedURLs.length
                  omega
                visited_mono := fun _ hu => hu
                visited_nodup := fun hn => hn
                fetched_ext := ⟨[], by simp [release]⟩
                offered_ext := ⟨[], by simp [release]⟩ }
          · simp only [hv, if_false] at h
            have hself : Reached e pageURL depth (pageURL, depth) :=
              ⟨Nat.le_refl _, by simp only; omega, by simp [Hops]⟩
            have hclaim := Extends.claim (Reached e pageURL depth) c pageURL depth
              hcount hv hself
            cases hf : e.fetchURL pageURL with
            | none =>
              simp only [hf, Option.some.injEq] at h
              subst h
              exact ⟨by simp [release], hclaim.trans (Extends.release _ _)⟩
            | some content =>
              simp only [hf, Option.map_eq_some'] at h
              obtain ⟨c₂, hloop, rfl⟩ := h
              have hkids := linkLoop_extends e
                (fun url c => crawlPage e fuel url (depth + 1) c)
                (Reached e pageURL depth) (extractLinks (e.tokenize content))
                (fun href fullURL c₃ c₄ hm hp hs hc => by
                  obtain ⟨s, x⟩ := ih fullURL.String (depth + 1) c₃ c₄ hc
                  exact ⟨s, x.mono (reached_of_child
                    ⟨content, href, fullURL, hf, hm, hp, rfl, hs⟩)⟩)
              obtain ⟨s₂, x₂⟩ := hkids _ _ hloop
              cases hp : e.Parse pageURL with
              | none =>
                simp only [hp] at s₂ x₂
                refine ⟨by simp [release, s₂], ?_⟩
                exact hclaim.trans (x₂.trans (Extends.release _ _))
              | some parsedURL =>
                simp only [hp] at s₂ x₂
                refine ⟨by simp [release, s₂, offer], ?_⟩
                exact hclaim.trans ((Extends.offer _ _ _).trans
                  (x₂.trans (Extends.release _ _)))

/-! ## The crawl: every call returns -/

theorem linkLoop_returns (e : Env) (child : Str → Crawler → Option Crawler) (s : Nat)
    (links : List Str)
    (hchild : ∀ url c, c.semaphore = s → ∃ c', child url c = some c' ∧ c'.semaphore = s) :
    ∀ c, c.semaphore = s → ∃ c', linkLoop e child links c = some c' := by
  induction links with
  | nil => intro c _; exact ⟨c, rfl⟩
  | cons href rest ih =>
    intro c hc
    cases hp : e.Parse href with
    | none =>
      simp only [linkLoop, hp]
      exact ih c hc
    | some fullURL =>
      simp only [linkLoop, hp]
      by_cases hs : isSameDomain e fullURL.String = true
      · obtain ⟨c₁, h₁, s₁⟩ := hchild fullURL.String c hc
        simp only [hs, if_true, h₁]
        by_cases hq : fullURL.RawQuery = []
        · simp only [hq, ne_eq, not_true_eq_false, if_false]
          exact ih c₁ s₁
        · simp only [ne_eq, hq, not_false_eq_true, if_true]
          exact ih _ (by simpa [offer] using s₁)
      · simp only [hs, if_false]
        by_cases hq : fullURL.RawQuery = []
        · simp only [hq, ne_eq, not_true_eq_false, if_false]
          exact ih c hc
        · simp only [ne_eq, hq, not_false_eq_true, if_true]
          exact ih _ (by simpa [offer] using hc)

theorem crawlPage_returns (e : Env) (fuel : Nat) :
    ∀ (pageURL : Str) (depth : Nat) (c : Crawler), 1 ≤ fuel → maxDepth + 2 ≤ fuel + depth →
      c.semaphore + (maxDepth + 1 - depth) ≤ maxWorkers →
      ∃ c', crawlPage e fuel pageURL depth c = some c' := by
  induction fuel with
  | zero => intro _ _ _ h; omega
  | succ fuel ih =>
    intro pageURL depth c _ hfuel hsem
    unfold crawlPage
    by_cases hd : depth > maxDepth
    · exact ⟨c, by simp only [hd, if_true]⟩
    · simp only [hd, if_false]
      by_cases hcount : c.urlCount ≥ maxURLsPerDomain
      · exact ⟨c, by simp only [shouldCrawl, hcount, if_true]⟩
      · simp only [shouldCrawl, hcount, if_false]
        have hfree : ¬ c.semaphore ≥ maxWorkers := by omega
        simp only [hfree, if_false]
        by_cases hv : pageURL ∈ c.visitedURLs
        · simp only [hv, if_true]
          exact ⟨_, rfl⟩
        · simp only [hv, if_false]
          cases hf : e.fetchURL pageURL with
          | none => exact ⟨_, rfl⟩
          | some content =>
            simp only [Option.map_eq_some']
            have hkids := linkLoop_returns e
              (fun url c => crawlPage e fuel url (depth + 1) c) (c.semaphore + 1)
              (extractLinks (e.tokenize content))
              (fun url c₁ h₁ => by
                obtain ⟨c₂, h₂⟩ := ih url (depth + 1) c₁ (by omega) (by omega)
                  (by rw [h₁]; omega)
                exact ⟨c₂, h₂, by rw [(crawlPage_extends e fuel url (depth + 1) c₁ c₂ h₂).1, h₁]⟩)
            cases hp : e.Parse pageURL with
            | none =>
              obtain ⟨c₂, h₂⟩ := hkids
                { visitedURLs := pageURL :: c.visitedURLs, semaphore := c.semaphore + 1,
                  urlCount := c.urlCount + 1, fetched := c.fetched ++ [(pageURL, depth)],
                  offered := c.offered } rfl
              exact ⟨release c₂, c₂, h₂, rfl⟩
            | some parsedURL =>
              obtain ⟨c₂, h₂⟩ := hkids
                (offer parsedURL.Query
                  { visitedURLs := pageURL :: c.visitedURLs, semaphore := c.semaphore + 1,
                    urlCount := c.urlCount + 1, fetched := c.fetched ++ [(pageURL, depth)],
                    offered := c.offered }) rfl
              exact ⟨release c₂, c₂, h₂, rfl⟩

theorem linkLoop_mono (e : Env) (child₁ child₂ : Str → Crawler → Option Crawler)
    (h : ∀ url c c', child₁ url c = some c' → child₂ url c = some c') (links : List Str) :
    ∀ c c', linkLoop e child₁ links c = some c' → linkLoop e child₂ links c = some c' := by
  induction links with
  | nil => intro c c' hc; simpa [linkLoop] using hc
  | cons href rest ih =>
    intro c c' hc
    cases hp : e.Parse href with
    | none =>
      simp only [linkLoop, hp] at hc ⊢
      exact ih c c' hc
    | some fullURL =>
      simp only [linkLoop, hp] at hc ⊢
      by_cases hs : isSameDomain e fullURL.String = true
      · simp only [hs, if_true] at hc ⊢
        cases h₁ : child₁ fullURL.String c with
        | none => simp [h₁] at hc
        | some c₁ =>
          simp only [h₁] at hc
          simp only [h _ _ _ h₁]
          by_cases hq : fullURL.RawQuery = []
          · simp only [hq, ne_eq, not_true_eq_false, if_false] at hc ⊢
            exact ih _ _ hc
          · simp only [ne_eq, hq, not_false_eq_true, if_true] at hc ⊢
            exact ih _ _ hc
      · simp only [hs, if_false] at hc ⊢
        by_cases hq : fullURL.RawQuery = []
        · simp only [hq, ne_eq, not_true_eq_false, if_false] at hc ⊢
          exact ih _ _ hc
        · simp only [ne_eq, hq, not_false_eq_true, if_true] at hc ⊢
          exact ih _ _ hc

theorem crawlPage_fuel_succ (e : Env) (fuel : Nat) :
    ∀ (pageURL : Str) (depth : Nat) (c c' : Crawler),
      crawlPage e fuel pageURL depth c = some c' →
      crawlPage e (fuel + 1) pageURL depth c = some c' := by
  induction fuel with
  | zero => intro _ _ _ _ h; simp [crawlPage] at h
  | succ fuel ih =>
    intro pageURL depth c c' h
    unfold crawlPage at h ⊢
    by_cases hd : depth > maxDepth
    · simpa only [hd, if_true] using h
    · simp only [hd, if_false] at h ⊢
      by_cases hcount : c.urlCount ≥ maxURLsPerDomain
      · simpa only [shouldCrawl, hcount, if_true] using h
      · simp only [shouldCrawl, hcount, if_false] at h ⊢
        by_cases hsem : c.semaphore ≥ maxWorkers
        · simp [hsem] at h
        · simp only [hsem, if_false] at h ⊢
          by_cases hv : pageURL ∈ c.visitedURLs
          · simpa only [hv, if_true] using h
          · simp only [hv, if_false] at h ⊢
            cases hf : e.fetchURL pageURL with
            | none => simpa only [hf] using h
            | some content =>
              simp only [hf, Option.map_eq_some'] at h ⊢
              obtain ⟨c₂, hloop, hrel⟩ := h
              exact ⟨c₂, linkLoop_mono e _ _ (fun url c₃ c₄ hc =>
                ih url (depth + 1) c₃ c₄ hc) _ _ _ hloop, hrel⟩

theorem crawlPage_fuel_add (e : Env) (fuel k : Nat) (pageURL : Str) (depth : Nat)
    (c c' : Crawler) (h : crawlPage e fuel pageURL depth c = some c') :
    crawlPage e (fuel + k) pageURL depth c = some c' := by
  induction k with
  | zero => exact h
  | succ k ih => exact crawlPage_fuel_succ e (fuel + k) pageURL depth c c' ih

theorem crawl_returns (e : Env) (root : Str) :
    ∃ c', crawlPage e (maxDepth + 2) root 0 newCrawler = some c' :=
  crawlPage_returns e (maxDepth + 2) root 0 newCrawler (by omega) (by omega) (by decide)

/-! ## The crawl under every schedule -/

theorem getElem?_split {l : List Task} {i : Nat} {t : Task} (h : l[i]? = some t) :
    ∃ pre post, l = pre ++ t :: post ∧ ∀ t', l.set i t' = pre ++ t' :: post := by
  induction l generalizing i with
  | nil => simp at h
  | cons a l ih =>
    cases i with
    | zero =>
      simp only [List.getElem?_cons_zero, Option.some.injEq] at h
      subst h
      exact ⟨[], l, rfl, fun _ => rfl⟩
    | succ i =>
      simp only [List.getElem?_cons_succ] at h
      obtain ⟨pre, post, hl, hset⟩ := ih h
      exact ⟨a :: pre, post, by rw [hl]; rfl, fun t' => by
        rw [List.set_cons_succ, hset t']; rfl⟩

theorem claimed_append (a b : List Task) : claimed (a ++ b) = claimed a ++ claimed b := by
  simp [claimed]

theorem claimed_cons (t : Task) (l : List Task) :
    claimed (t :: l) = if t.stage = Stage.fetch then t.pageURL :: claimed l else claimed l := by
  by_cases h : t.stage = Stage.fetch <;> simp [claimed, List.filter_cons, h]

theorem pending_append (a b : List Task) : pending (a ++ b) = pending a + pending b := by
  simp [pending]

theorem pending_cons (t : Task) (l : List Task) :
    pending (t :: l) =
      pending l + if t.stage = Stage.acquire ∨ t.stage = Stage.claim then 1 else 0 := by
  by_cases h : t.stage = Stage.acquire ∨ t.stage = Stage.claim <;>
    simp [pending, List.countP_cons, h]

theorem claimed_started (e : Env) (u : Str) (d i : Nat) :
    claimed (if isSameDomain e u = true then
      [{ pageURL := u, depth := d, parent := some i, stage := Stage.entry }] else []) = [] := by
  by_cases h : isSameDomain e u = true <;> simp [claimed, h]

theorem pending_started (e : Env) (u : Str) (d i : Nat) :
    pending (if isSameDomain e u = true then
      [{ pageURL := u, depth := d, parent := some i, stage := Stage.entry }] else []) = 0 := by
  by_cases h : isSameDomain e u = true <;> simp [pending, h]

theorem forall_mem_update {P : Task → Prop} {pre post kids : List Task} {t t' : Task}
    (h : ∀ x, x ∈ pre ++ t :: post → P x) (ht : P t') (hk : ∀ x, x ∈ kids → P x) :
    ∀ x, x ∈ pre ++ t' :: post ++ kids → P x := by
  intro x hx
  simp only [List.mem_append, List.mem_cons] at hx h
  rcases hx with (hx | hx | hx) | hx
  · exact h x (Or.inl hx)
  · exact hx ▸ ht
  · exact h x (Or.inr (Or.inr hx))
  · exact hk x hx

theorem forall_mem_set {P : Task → Prop} {pre post : List Task} {t t' : Task}
    (h : ∀ x, x ∈ pre ++ t :: post → P x) (ht : P t') :
    ∀ x, x ∈ pre ++ t' :: post → P x := by
  intro x hx
  simp only [List.mem_append, List.mem_cons] at hx h
  rcases hx with hx | hx | hx
  · exact h x (Or.inl hx)
  · exact hx ▸ ht
  · exact h x (Or.inr (Or.inr hx))

theorem step_inv (e : Env) (p : Pool) (i : Nat) (h : PoolInv p) : PoolInv (step e p i) := by
  obtain ⟨c, tasks⟩ := p
  have h' := h
  unfold step
  cases hi : tasks[i]? with
  | none => simpa only [hi] using h
  | some t =>
    obtain ⟨pre, post, hl, hset⟩ := getElem?_split hi
    subst hl
    obtain ⟨once, visited, nodup, paid, cap, depth_task, depth_log⟩ := h
    simp only [claimed_append, claimed_cons, pending_append, pending_cons] at once visited paid
    dsimp only at nodup cap depth_task depth_log
    simp only [hi]
    cases hst : t.stage with
    | entry =>
      simp only [hst, reduceCtorEq, if_false, or_self, Nat.add_zero] at once visited paid
      simp only [hset]
      by_cases hd : t.depth > maxDepth
      · simp only [hd, if_true]
        exact
          { once := by simpa [claimed_append, claimed_cons] using once
            visited := by simpa [claimed_append, claimed_cons] using visited
            nodup := nodup
            paid := by simpa [pending_append, pending_cons] using paid
            cap := cap
            depth_task := forall_mem_set depth_task (fun _ hn => absurd rfl hn)
            depth_log := depth_log }
      · simp only [hd, if_false]
        by_cases hcount : c.urlCount ≥ maxURLsPerDomain
        · simp only [shouldCrawl, hcount, if_true]
          exact
            { once := by simpa [claimed_append, claimed_cons] using once
              visited := by simpa [claimed_append, claimed_cons] using visited
              nodup := nodup
              paid := by simpa [pending_append, pending_cons] using paid
              cap := cap
              depth_task := forall_mem_set depth_task (fun _ hn => absurd rfl hn)
              depth_log := depth_log }
        · simp only [shouldCrawl, hcount, if_false]
          exact
            { once := by simpa [claimed_append, claimed_cons] using once
              visited := by simpa [claimed_append, claimed_cons] using visited
              nodup := nodup
              paid := by
                simp only [pending_append, pending_cons, true_or, if_true]
                omega
              cap := by
                show c.urlCount + 1 ≤ maxURLsPerDomain
                omega
              depth_task := forall_mem_set depth_task (fun _ _ => by
                show t.depth ≤ maxDepth
                omega)
              depth_log := depth_log }
    | acquire =>
      simp only [hst, reduceCtorEq, if_false, true_or, if_true] at once visited paid
      have hdep : t.depth ≤ maxDepth :=
        depth_task t (by simp) (by simp [hst]) (by simp [hst])
      by_cases hsem : c.semaphore ≥ maxWorkers
      · simpa only [hsem, if_true] using h'
      · simp only [hsem, if_false, hset]
        exact
          { once := by simpa [claimed_append, claimed_cons] using once
            visited := by simpa [claimed_append, claimed_cons] using visited
            nodup := nodup
            paid := by
              simp only [pending_append, pending_cons, or_true, if_true]
              omega
            cap := cap
            depth_task := forall_mem_set depth_task (fun _ _ => hdep)
            depth_log := depth_log }
    | claim =>
      simp only [hst, reduceCtorEq, if_false, or_true, if_true] at once visited paid
      have hdep : t.depth ≤ maxDepth :=
        depth_task t (by simp) (by simp [hst]) (by simp [hst])
      by_cases hv : t.pageURL ∈ c.visitedURLs
      · simp only [hv, if_true, hset]
        exact
          { once := by simpa [claimed_append, claimed_cons, release] using once
            visited := by simpa [claimed_append, claimed_cons, release] using visited
            nodup := nodup
            paid := by
              simp only [pending_append, pending_cons, reduceCtorEq, or_self, if_false, release]
              omega
            cap := cap
            depth_task := forall_mem_set depth_task (fun _ hn => absurd rfl hn)
            depth_log := depth_log }
      · simp only [hv, if_false, hset]
        have hp : (c.fetched.map Prod.fst ++ (claimed pre ++ t.pageURL :: claimed post)).Perm
            (t.pageURL :: (c.fetched.map Prod.fst ++ (claimed pre ++ claimed post))) := by
          rw [← List.append_assoc, ← List.append_assoc]
          exact List.perm_middle
        exact
          { once := by
              simp only [claimed_append, claimed_cons, if_true]
              rw [hp.nodup_iff, List.nodup_cons]
              exact ⟨fun hm => hv (visited _ hm), once⟩
            visited := by
              simp only [claimed_append, claimed_cons, if_true]
              intro u hu
              rcases List.mem_cons.1 (hp.mem_iff.1 hu) with hu | hu
              · exact hu ▸ List.mem_cons_self _ _
              · exact List.mem_cons_of_mem _ (visited u hu)
            nodup := List.nodup_cons.2 ⟨hv, nodup⟩
            paid := by
              simp only [pending_append, pending_cons, reduceCtorEq, or_self, if_false,
                List.length_cons]
              omega
            cap := cap
            depth_task := forall_mem_set depth_task (fun _ _ => hdep)
            depth_log := depth_log }
    | fetch =>
      simp only [hst, reduceCtorEq, if_false, if_true, or_self, Nat.add_zero]
        at once visited paid
      have hdep : t.depth ≤ maxDepth :=
        depth_task t (by simp) (by simp [hst]) (by simp [hst])
      have hp : (c.fetched.map Prod.fst ++ (claimed pre ++ t.pageURL :: claimed post)).Perm
          ((c.fetched ++ [(t.pageURL, t.depth)]).map Prod.fst ++
            (claimed pre ++ claimed post)) := by
        rw [List.map_append, List.append_assoc]
        exact List.Perm.append_left _ (by simp)
      have hlog : ∀ x, x ∈ c.fetched ++ [(t.pageURL, t.depth)] → x.2 ≤ maxDepth := by
        intro x hx
        rcases List.mem_append.1 hx with hx | hx
        · exact depth_log x hx
        · rw [List.mem_singleton] at hx
          subst hx
          exact hdep
      cases hf : e.fetchURL t.pageURL with
      | none =>
        simp only [hset]
        exact
          { once := by
              simp only [claimed_append, claimed_cons, reduceCtorEq, if_false, release]
              exact hp.nodup_iff.1 once
            visited := by
              simp only [claimed_append, claimed_cons, reduceCtorEq, if_false, release]
              exact fun u hu => visited u (hp.mem_iff.2 hu)
            nodup := nodup
            paid := by
              simp only [pending_append, pending_cons, reduceCtorEq, or_self, if_false, release]
              omega
            cap := cap
            depth_task := forall_mem_set depth_task (fun _ hn => absurd rfl hn)
            depth_log := hlog }
      | some content =>
        simp only [hset]
        cases hq : e.Parse t.pageURL with
        | none =>
          exact
            { once := by
                simp only [claimed_append, claimed_cons, reduceCtorEq, if_false]
                exact hp.nodup_iff.1 once
              visited := by
                simp only [claimed_append, claimed_cons, reduceCtorEq, if_false]
                exact fun u hu => visited u (hp.mem_iff.2 hu)
              nodup := nodup
              paid := by
                simp only [pending_append, pending_cons, reduceCtorEq, or_self, if_false]
                omega
              cap := cap
              depth_task := forall_mem_set depth_task (fun _ _ => hdep)
              depth_log := hlog }
        | some parsedURL =>
          exact
            { once := by
                simp only [claimed_append, claimed_cons, reduceCtorEq, if_false, offer]
                exact hp.nodup_iff.1 once
              visited := by
                simp only [claimed_append, claimed_cons, reduceCtorEq, if_false, offer]
                exact fun u hu => visited u (hp.mem_iff.2 hu)
              nodup := nodup
              paid := by
                simp only [pending_append, pending_cons, reduceCtorEq, or_self, if_false, offer]
                omega
              cap := cap
              depth_task := forall_mem_set depth_task (fun _ _ => hdep)
              depth_log := hlog }
    | links rest =>
      simp only [hst, reduceCtorEq, if_false, or_self, Nat.add_zero] at once visited paid
      have hdep : t.depth ≤ maxDepth :=
        depth_task t (by simp) (by simp [hst]) (by simp [hst])
      cases rest with
      | nil =>
        simp only [hset]
        exact
          { once := by simpa [claimed_append, claimed_cons] using once
            visited := by simpa [claimed_append, claimed_cons] using visited
            nodup := nodup
            paid := by simpa [pending_append, pending_cons] using paid
            cap := cap
            depth_task := forall_mem_set depth_task (fun _ _ => hdep)
            depth_log := depth_log }
      | cons href rest =>
        cases hq : e.Parse href with
        | none =>
          simp only [hset, hq]
          exact
            { once := by simpa [claimed_append, claimed_cons] using once
              visited := by simpa [claimed_append, claimed_cons] using visited
              nodup := nodup
              paid := by simpa [pending_append, pending_cons] using paid
              cap := cap
              depth_task := forall_mem_set depth_task (fun _ _ => hdep)
              depth_log := depth_log }
        | some fullURL =>
          simp only [hset, hq]
          have hkids : ∀ x, x ∈ (if isSameDomain e fullURL.String = true then
              [({ pageURL := fullURL.String, depth := t.depth + 1, parent := some i,
                  stage := Stage.entry } : Task)] else []) →
              x.stage ≠ Stage.entry → x.stage ≠ Stage.done → x.depth ≤ maxDepth := by
            intro x hx hne
            by_cases hs : isSameDomain e fullURL.String = true
            · simp only [hs, if_true, List.mem_singleton] at hx
              subst hx
              exact absurd rfl hne
            · simp only [hs] at hx
              exact absurd hx (List.not_mem_nil _)
          by_cases hr : fullURL.RawQuery = []
          · simp only [hr, ne_eq, not_true_eq_false, if_false]
            exact
              { once := by
                  simpa [claimed_append, claimed_cons, claimed_started] using once
                visited := by
                  simpa [claimed_append, claimed_cons, claimed_started] using visited
                nodup := nodup
                paid := by
                  simpa [pending_append, pending_cons, pending_started] using paid
                cap := cap
                depth_task := forall_mem_update depth_task (fun _ _ => hdep) hkids
                depth_log := depth_log }
          · simp only [ne_eq, hr, not_false_eq_true, if_true]
            exact
              { once := by
                  simpa [claimed_append, claimed_cons, claimed_started, offer] using once
                visited := by
                  simpa [claimed_append, claimed_cons, claimed_started, offer] using visited
                nodup := nodup
                paid := by
                  simpa [pending_append, pending_cons, pending_started, offer] using paid
                cap := cap
                depth_task := forall_mem_update depth_task (fun _ _ => hdep) hkids
                depth_log := depth_log }
    | wait =>
      simp only [hst, reduceCtorEq, if_false, or_self, Nat.add_zero] at once visited paid
      have hdep : t.depth ≤ maxDepth :=
        depth_task t (by simp) (by simp [hst]) (by simp [hst])
      by_cases hw : childrenDone (pre ++ t :: post) i = true
      · simp only [hw, if_true, hset]
        exact
          { once := by simpa [claimed_append, claimed_cons, release] using once
            visited := by simpa [claimed_append, claimed_cons, release] using visited
            nodup := nodup
            paid := by simpa [pending_append, pending_cons, release] using paid
            cap := cap
            depth_task := forall_mem_set depth_task (fun _ hn => absurd rfl hn)
            depth_log := depth_log }
      · simpa only [hw] using h'
    | done => exact h'

theorem calls_pos (e : Env) (r : Nat) (u : Str) : 1 ≤ calls e r u := by
  cases r with
  | zero => simp [calls]
  | succ r => simp [calls]

theorem weight_pos (e : Env) (t : Task) : 1 ≤ weight e t := by
  unfold weight
  split
  · omega
  · omega
  · omega
  · exact calls_pos _ _ _

theorem total_append (e : Env) (a b : List Task) : total e (a ++ b) = total e a + total e b := by
  simp [total]

theorem total_cons (e : Env) (t : Task) (l : List Task) :
    total e (t :: l) = weight e t + total e l := by
  simp [total]

theorem length_le_total (e : Env) (tasks : List Task) : tasks.length ≤ total e tasks := by
  induction tasks with
  | nil => simp [total]
  | cons t l ih =>
    rw [total_cons, List.length_cons]
    have := weight_pos e t
    omega

theorem total_update (e : Env) (pre post kids : List Task) (t t' : Task)
    (h : weight e t' + total e kids ≤ weight e t) :
    total e (pre ++ t' :: post ++ kids) ≤ total e (pre ++ t :: post) := by
  simp only [total_append, total_cons]
  omega

theorem total_set (e : Env) (pre post : List Task) (t t' : Task)
    (h : weight e t' ≤ weight e t) :
    total e (pre ++ t' :: post) ≤ total e (pre ++ t :: post) := by
  simp only [total_append, total_cons]
  omega

theorem inScope_cons (e : Env) (href : Str) (rest : List Str) :
    inScope e (href :: rest) =
      match e.Parse href with
      | none => inScope e rest
      | some fullURL =>
        if isSameDomain e fullURL.String = true then fullURL.String :: inScope e rest
        else inScope e rest := by
  cases hp : e.Parse href with
  | none => simp [inScope, List.filterMap_cons, hp]
  | some fullURL =>
    by_cases hs : isSameDomain e fullURL.String = true <;>
      simp [inScope, List.filterMap_cons, hp, hs]

theorem step_total (e : Env) (p : Pool) (i : Nat) (h : PoolInv p) :
    total e (step e p i).tasks ≤ total e p.tasks := by
  obtain ⟨c, tasks⟩ := p
  unfold step
  cases hi : tasks[i]? with
  | none => simp only [hi]; exact Nat.le_refl _
  | some t =>
    obtain ⟨pre, post, hl, hset⟩ := getElem?_split hi
    subst hl
    have hdepth := h.depth_task t (by simp)
    simp only [hi]
    cases hst : t.stage with
    | entry =>
      have hw : weight e t = calls e (maxDepth + 1 - t.depth) t.pageURL := by
        simp [weight, hst]
      by_cases hd : t.depth > maxDepth
      · simp only [hd, if_true, hset]
        exact total_set e _ _ _ _ (by rw [hw]; simpa [weight] using calls_pos _ _ _)
      · simp only [hd, if_false]
        by_cases hcount : c.urlCount ≥ maxURLsPerDomain
        · simp only [shouldCrawl, hcount, if_true, hset]
          exact total_set e _ _ _ _ (by rw [hw]; simpa [weight] using calls_pos _ _ _)
        · simp only [shouldCrawl, hcount, if_false, hset]
          exact total_set e _ _ _ _ (by rw [hw]; simp [weight])
    | acquire =>
      have hw : weight e t = calls e (maxDepth + 1 - t.depth) t.pageURL := by
        simp [weight, hst]
      by_cases hsem : c.semaphore ≥ maxWorkers
      · simp only [hsem, if_true]; exact Nat.le_refl _
      · simp only [hsem, if_false, hset]
        exact total_set e _ _ _ _ (by rw [hw]; simp [weight])
    | claim =>
      have hw : weight e t = calls e (maxDepth + 1 - t.depth) t.pageURL := by
        simp [weight, hst]
      by_cases hv : t.pageURL ∈ c.visitedURLs
      · simp only [hv, if_true, hset]
        exact total_set e _ _ _ _ (by rw [hw]; simpa [weight] using calls_pos _ _ _)
      · simp only [hv, if_false, hset]
        exact total_set e _ _ _ _ (by rw [hw]; simp [weight])
    | fetch =>
      have hw : weight e t = calls e (maxDepth + 1 - t.depth) t.pageURL := by
        simp [weight, hst]
      have hdep : t.depth ≤ maxDepth := hdepth (by simp [hst]) (by simp [hst])
      cases hf : e.fetchURL t.pageURL with
      | none =>
        simp only [hset]
        exact total_set e _ _ _ _ (by rw [hw]; simpa [weight] using calls_pos _ _ _)
      | some content =>
        simp only [hset]
        refine total_set e _ _ _ _ ?_
        have hr : maxDepth + 1 - t.depth = (maxDepth - t.depth) + 1 := by omega
        rw [hw, hr]
        simp [weight, calls, pageLinks, hf]
    | links rest =>
      cases rest with
      | nil =>
        simp only [hset]
        exact total_set e _ _ _ _ (by simp [weight, hst])
      | cons href rest =>
        cases hq : e.Parse href with
        | none =>
          simp only [hset, hq]
          exact total_set e _ _ _ _ (by simp [weight, hst, inScope_cons, hq])
        | some fullURL =>
          simp only [hset, hq]
          refine total_update e _ _ _ _ _ ?_
          have hr : maxDepth + 1 - (t.depth + 1) = maxDepth - t.depth := by omega
          by_cases hs : isSameDomain e fullURL.String = true
          · simp [weight, hst, inScope_cons, hq, hs, total, hr]
            omega
          · simp [weight, hst, inScope_cons, hq, hs, total]
    | wait =>
      by_cases hw : childrenDone (pre ++ t :: post) i = true
      · simp only [hw, if_true, hset]
        exact total_set e _ _ _ _ (by simp [weight, hst])
      · simp only [hw]; exact Nat.le_refl _
    | done => exact Nat.le_refl _

theorem run_total (e : Env) (schedule : List Nat) :
    ∀ p, PoolInv p → total e (run e schedule p).tasks ≤ total e p.tasks := by
  induction schedule with
  | nil => intro p _; exact Nat.le_refl _
  | cons i rest ih =>
    intro p h
    exact Nat.le_trans (ih _ (step_inv e p i h)) (step_total e p i h)

theorem startPool_inv (root : Str) : PoolInv (startPool root) where
  once := by simp [startPool, newCrawler, claimed]
  visited := by simp [startPool, newCrawler, claimed]
  nodup := by simp [startPool, newCrawler]
  paid := by simp [startPool, newCrawler, pending]
  cap := by simp [startPool, newCrawler]
  depth_task := by simp [startPool]
  depth_log := by simp [startPool, newCrawler]

theorem run_inv (e : Env) (schedule : List Nat) :
    ∀ p, PoolInv p → PoolInv (run e schedule p) := by
  induction schedule with
  | nil => intro p h; exact h
  | cons i rest ih =>
    intro p h
    exact ih _ (step_inv e p i h)

/-! ## Steps of one goroutine -/

theorem getElem?_mid (pre post : List Task) (t : Task) :
    (pre ++ t :: post)[pre.length]? = some t := by
  rw [List.getElem?_append_right (Nat.le_refl _), Nat.sub_self]
  exact List.getElem?_cons_zero

theorem set_mid (pre post : List Task) (t t' : Task) :
    (pre ++ t :: post).set pre.length t' = pre ++ t' :: post := by
  simp

theorem step_entry (e : Env) (c : Crawler) (pre post : List Task) (u : Str) (d : Nat)
    (par : Option Nat) (hd : d ≤ maxDepth) (hc : c.urlCount < maxURLsPerDomain) :
    step e ⟨c, pre ++ ⟨u, d, par, Stage.entry⟩ :: post⟩ pre.length =
      ⟨{ c with urlCount := c.urlCount + 1 }, pre ++ ⟨u, d, par, Stage.acquire⟩ :: post⟩ := by
  have h1 : ¬ d > maxDepth := by omega
  have h2 : ¬ c.urlCount ≥ maxURLsPerDomain := by omega
  unfold step
  simp only [getElem?_mid, set_mid]
  simp [shouldCrawl, h1, h2]

theorem step_acquire (e : Env) (c : Crawler) (pre post : List Task) (u : Str) (d : Nat)
    (par : Option Nat) (hs : c.semaphore < maxWorkers) :
    step e ⟨c, pre ++ ⟨u, d, par, Stage.acquire⟩ :: post⟩ pre.length =
      ⟨{ c with semaphore := c.semaphore + 1 }, pre ++ ⟨u, d, par, Stage.claim⟩ :: post⟩ := by
  have h1 : ¬ c.semaphore ≥ maxWorkers := by omega
  unfold step
  simp only [getElem?_mid, set_mid]
  simp [h1]

theorem step_claim (e : Env) (c : Crawler) (pre post : List Task) (u : Str) (d : Nat)
    (par : Option Nat) (hv : u ∉ c.visitedURLs) :
    step e ⟨c, pre ++ ⟨u, d, par, Stage.claim⟩ :: post⟩ pre.length =
      ⟨{ c with visitedURLs := u :: c.visitedURLs },
        pre ++ ⟨u, d, par, Stage.fetch⟩ :: post⟩ := by
  unfold step
  simp only [getElem?_mid, set_mid]
  simp [hv]

theorem step_fetch (e : Env) (c : Crawler) (pre post : List Task) (u : Str) (d : Nat)
    (par : Option Nat) (content : Str) (parsed : URL) (hf : e.fetchURL u = some content)
    (hp : e.Parse u = some parsed) (hq : parsed.Query = []) :
    step e ⟨c, pre ++ ⟨u, d, par, Stage.fetch⟩ :: post⟩ pre.length =
      ⟨{ c with fetched := c.fetched ++ [(u, d)] },
        pre ++ ⟨u, d, par, Stage.links (extractLinks (e.tokenize content))⟩ :: post⟩ := by
  unfold step
  simp only [getElem?_mid, set_mid]
  simp [hf, hp, hq, offer]

theorem step_link (e : Env) (c : Crawler) (pre post : List Task) (u : Str) (d : Nat)
    (par : Option Nat) (href : Str) (rest : List Str) (fullURL : URL)
    (hp : e.Parse href = some fullURL) (hs : isSameDomain e fullURL.String = true)
    (hq : fullURL.RawQuery = []) :
    step e ⟨c, pre ++ ⟨u, d, par, Stage.links (href :: rest)⟩ :: post⟩ pre.length =
      ⟨c, pre ++ ⟨u, d, par, Stage.links rest⟩ ::
        (post ++ [⟨fullURL.String, d + 1, some pre.length, Stage.entry⟩])⟩ := by
  unfold step
  simp only [getElem?_mid, set_mid]
  simp [hp, hs, hq]

theorem step_links_nil (e : Env) (c : Crawler) (pre post : List Task) (u : Str) (d : Nat)
    (par : Option Nat) :
    step e ⟨c, pre ++ ⟨u, d, par, Stage.links []⟩ :: post⟩ pre.length =
      ⟨c, pre ++ ⟨u, d, par, Stage.wait⟩ :: post⟩ := by
  unfold step
  simp only [getElem?_mid, set_mid]

theorem run_append (e : Env) (a b : List Nat) (p : Pool) :
    run e (a ++ b) p = run e b (run e a p) := by
  simp [run, List.foldl_append]

theorem run_cons (e : Env) (i : Nat) (l : List Nat) (p : Pool) :
    run e (i :: l) p = run e l (step e p i) := rfl

theorem run_links (e : Env) (c : Crawler) (pre : List Task) (u : Str) (d : Nat)
    (par : Option Nat) (hs : List Str)
    (hok : ∀ h ∈ hs, ∃ fullURL, e.Parse h = some fullURL ∧ fullURL.String = h ∧
      fullURL.RawQuery = [] ∧ isSameDomain e h = true) :
    ∀ post, run e (List.replicate hs.length pre.length)
        ⟨c, pre ++ ⟨u, d, par, Stage.links hs⟩ :: post⟩ =
      ⟨c, pre ++ ⟨u, d, par, Stage.links []⟩ ::
        (post ++ hs.map (fun h => ⟨h, d + 1, some pre.length, Stage.entry⟩))⟩ := by
  induction hs with
  | nil => intro post; simp [run]
  | cons h hs ih =>
    intro post
    obtain ⟨fullURL, hp, hstr, hq, hsd⟩ := hok h (List.mem_cons_self _ _)
    rw [List.length_cons, List.replicate_succ, run_cons,
      step_link e c pre post u d par h hs fullURL hp (hstr ▸ hsd) hq,
      ih (fun x hx => hok x (List.mem_cons_of_mem _ hx)), hstr]
    simp

theorem run_page (e : Env) (c : Crawler) (pre post : List Task) (u : Str) (d : Nat)
    (par : Option Nat) (content : Str) (parsed : URL) (hs : List Str)
    (hd : d ≤ maxDepth) (hc : c.urlCount < maxURLsPerDomain) (hsem : c.semaphore < maxWorkers)
    (hv : u ∉ c.visitedURLs) (hf : e.fetchURL u = some content)
    (hp : e.Parse u = some parsed) (hq : parsed.Query = [])
    (hl : extractLinks (e.tokenize content) = hs)
    (hok : ∀ h ∈ hs, ∃ fullURL, e.Parse h = some fullURL ∧ fullURL.String = h ∧
      fullURL.RawQuery = [] ∧ isSameDomain e h = true) :
    run e (pre.length :: pre.length :: pre.length :: pre.length ::
        (List.replicate hs.length pre.length ++ [pre.length]))
        ⟨c, pre ++ ⟨u, d, par, Stage.entry⟩ :: post⟩ =
      ⟨{ visitedURLs := u :: c.visitedURLs, semaphore := c.semaphore + 1,
         urlCount := c.urlCount + 1, fetched := c.fetched ++ [(u, d)], offered := c.offered },
        pre ++ ⟨u, d, par, Stage.wait⟩ ::
          (post ++ hs.map (fun h => ⟨h, d + 1, some pre.length, Stage.entry⟩))⟩ := by
  have hsem' : ({ c with urlCount := c.urlCount + 1 } : Crawler).semaphore < maxWorkers := hsem
  have hv' : u ∉ ({ c with urlCount := c.urlCount + 1, semaphore := c.semaphore + 1 } :
      Crawler).visitedURLs := hv
  rw [run_cons, step_entry e c pre post u d par hd hc, run_cons,
    step_acquire e _ pre post u d par hsem', run_cons, step_claim e _ pre post u d par hv',
    run_cons, step_fetch e _ pre post u d par content parsed hf hp hq, hl, run_append,
    run_links e _ pre u d par hs hok, run_cons, step_links_nil]
  rfl

theorem run_entries (e : Env) :
    ∀ (ents : List Task) (c : Crawler) (pre : List Task),
      (∀ t ∈ ents, t.stage = Stage.entry ∧ t.depth ≤ maxDepth) →
      c.urlCount + ents.length ≤ maxURLsPerDomain →
      run e (List.range' pre.length ents.length) ⟨c, pre ++ ents⟩ =
        ⟨{ c with urlCount := c.urlCount + ents.length },
          pre ++ ents.map (fun t => { t with stage := Stage.acquire })⟩ := by
  intro ents
  induction ents with
  | nil => intro c pre _ _; simp [run]
  | cons t ents ih =>
    intro c pre hall hcap
    obtain ⟨u, d, par, st⟩ := t
    obtain ⟨hst, hd⟩ := hall _ (List.mem_cons_self _ _)
    simp only at hst hd
    subst hst
    simp only [List.length_cons] at hcap ⊢
    rw [List.range'_succ, run_cons, step_entry e c pre ents u d par hd (by omega)]
    have hpre : pre ++ ⟨u, d, par, Stage.acquire⟩ :: ents =
        (pre ++ [⟨u, d, par, Stage.acquire⟩]) ++ ents := by simp
    have hlen : pre.length + 1 = (pre ++ [(⟨u, d, par, Stage.acquire⟩ : Task)]).length := by
      simp
    rw [hpre, hlen, ih _ _ (fun x hx => hall x (List.mem_cons_of_mem _ hx))
      (by simp only; omega)]
    simp [Nat.add_assoc, Nat.add_comm 1]

theorem childrenDone_false (tasks : List Task) (i : Nat) (t : Task) (hm : t ∈ tasks)
    (hp : t.parent = some i) (hs : t.stage ≠ Stage.done) : childrenDone tasks i = false := by
  unfold childrenDone
  rw [List.all_eq_false]
  exact ⟨t, hm, by simp [hp, hs]⟩

theorem step_stuck (e : Env) (c : Crawler) (tasks : List Task)
    (hsem : c.semaphore ≥ maxWorkers)
    (h : ∀ i t, tasks[i]? = some t →
      t.stage = Stage.acquire ∨ (t.stage = Stage.wait ∧ childrenDone tasks i = false)) :
    ∀ i, step e ⟨c, tasks⟩ i = ⟨c, tasks⟩ := by
  intro i
  unfold step
  cases hi : tasks[i]? with
  | none => simp only [hi]
  | some t =>
    simp only [hi]
    rcases h i t hi with hst | ⟨hst, hcd⟩
    · simp [hst, hsem]
    · simp [hst, hcd]

theorem run_stuck (e : Env) (p : Pool) (h : ∀ i, step e p i = p) :
    ∀ schedule, run e schedule p = p := by
  intro schedule
  induction schedule with
  | nil => rfl
  | cons i rest ih => rw [run_cons, h i, ih]

/-! ## The wide site -/

theorem wide_parse (x : Str) :
    wideEnv.Parse (wideRoot ++ x) =
      some { Host := ascii "example.com", RawQuery := [], String := wideRoot ++ x,
             Query := [] } := by
  have h : wideRoot.isPrefixOf (wideRoot ++ x) = true :=
    List.isPrefixOf_iff_prefix.2 (List.prefix_append _ _)
  simp [wideEnv, h]

theorem wide_scope (x : Str) : isSameDomain wideEnv (wideRoot ++ x) = true := by
  unfold isSameDomain
  rw [wide_parse]
  show HasSuffix (ascii "example.com") (ascii "example.com") = true
  decide

theorem wide_ok (hs : List Str) (h : ∀ u ∈ hs, ∃ x, u = wideRoot ++ x) :
    ∀ u ∈ hs, ∃ fullURL, wideEnv.Parse u = some fullURL ∧ fullURL.String = u ∧
      fullURL.RawQuery = [] ∧ isSameDomain wideEnv u = true := by
  intro u hu
  obtain ⟨x, rfl⟩ := h u hu
  exact ⟨_, wide_parse x, rfl, rfl, wide_scope x⟩

theorem widePage_length (i : Nat) : (widePage i).length = wideRoot.length + (i + 1) := by
  simp [widePage]

theorem widePage_ne_root (i : Nat) : widePage i ≠ wideRoot := by
  intro h
  have := congrArg List.length h
  rw [widePage_length] at this
  omega

theorem widePage_injective : Function.Injective widePage := by
  intro i j h
  have := congrArg List.length h
  rw [widePage_length, widePage_length] at this
  omega

theorem wide_fetch_page (i : Nat) : wideEnv.fetchURL (widePage i) = some wideBody := by
  simp [wideEnv, widePage_ne_root]

theorem wideHome_ne_body : wideHome ≠ wideBody := by
  intro h
  have h1 : wideHome = (List.range 198).flatMap (fun i =>
      ascii "<a href=\x22" ++ widePage i ++ ascii "\x22>") ++
      (ascii "<a href=\x22" ++ widePage 198 ++ ascii "\x22>") := by
    show List.flatMap (List.range (198 + 1)) _ = _
    rw [List.range_succ, List.flatMap_append]
    simp
  have h2 := congrArg List.length h
  have h3 : wideBody.length = 31 := by decide
  rw [h1, h3] at h2
  simp only [List.length_append, widePage_length] at h2
  omega

theorem wide_tokens_home :
    wideEnv.tokenize wideHome = (List.range 199).map (fun i => anchorToken (widePage i)) := by
  simp [wideEnv]

theorem wide_tokens_body : wideEnv.tokenize wideBody = [anchorToken wideRoot] := by
  simp [wideEnv, wideHome_ne_body.symm]

theorem keepFirst_self (seen xs : List Str) (hn : xs.Nodup) (hd : ∀ x ∈ xs, x ∉ seen) :
    keepFirst seen xs = xs := by
  induction xs generalizing seen with
  | nil => rfl
  | cons x xs ih =>
    have hx := hd x (List.mem_cons_self _ _)
    rw [List.nodup_cons] at hn
    simp only [keepFirst, hx, if_false]
    rw [ih (x :: seen) hn.2]
    intro y hy
    rw [List.mem_cons, not_or]
    exact ⟨fun e => hn.1 (e ▸ hy), hd y (List.mem_cons_of_mem _ hy)⟩

theorem hrefValues_anchors (us : List Str) : hrefValues (us.map anchorToken) = us := by
  induction us with
  | nil => rfl
  | cons u us ih =>
    have ih' : List.filterMap
        (fun t : Token => if t.tokenType = TokenType.StartTagToken ∧ t.Data = ascii "a" then
          firstHref t.Attr else none)
        (List.takeWhile (fun t : Token => decide (t.tokenType ≠ TokenType.ErrorToken))
          (us.map anchorToken)) = us := ih
    simp only [hrefValues, List.map_cons]
    simp [anchorToken, List.takeWhile, List.filterMap, firstHref, List.find?]
    simpa [anchorToken] using ih'

theorem extractLinks_anchors (us : List Str) (hn : us.Nodup) :
    extractLinks (us.map anchorToken) = us := by
  unfold extractLinks
  rw [extractLoop_eq, hrefValues_anchors, List.nil_append,
    keepFirst_self [] us hn (fun _ _ => List.not_mem_nil _)]

theorem wide_links_home :
    extractLinks (wideEnv.tokenize wideHome) = (List.range 199).map widePage := by
  rw [wide_tokens_home]
  have h : (List.range 199).map (fun i => anchorToken (widePage i)) =
      ((List.range 199).map widePage).map anchorToken := by
    rw [List.map_map]; rfl
  rw [h, extractLinks_anchors _ ((List.nodup_range 199).map widePage_injective)]

theorem wide_links_body : extractLinks (wideEnv.tokenize wideBody) = [wideRoot] := by
  rw [wide_tokens_body]
  exact extractLinks_anchors [wideRoot] (by simp)

theorem wide_start :
    run wideEnv (List.replicate 204 0) (startPool wideRoot) = wideAfter 0 := by
  have hnd : wideRoot ∉ newCrawler.visitedURLs := by simp [newCrawler]
  have h := run_page wideEnv newCrawler [] [] wideRoot 0 none wideHome
    { Host := ascii "example.com", RawQuery := [], String := wideRoot, Query := [] }
    ((List.range 199).map widePage) (by decide) (by decide) (by decide) hnd
    (by simp [wideEnv]) (by simpa using wide_parse []) rfl wide_links_home
    (wide_ok _ (by
      intro u hu
      obtain ⟨i, _, rfl⟩ := List.mem_map.1 hu
      exact ⟨_, rfl⟩))
  simp only [List.length_nil, List.length_map, List.length_range] at h
  have hs : List.replicate 204 0 =
      0 :: 0 :: 0 :: 0 :: (List.replicate 199 0 ++ [0]) := by
    show List.replicate (199 + 1 + 1 + 1 + 1 + 1) 0 = _
    rw [List.replicate_succ, List.replicate_succ, List.replicate_succ, List.replicate_succ,
      List.replicate_succ']
  have e1 : startPool wideRoot =
      ⟨newCrawler, [] ++ ⟨wideRoot, 0, none, Stage.entry⟩ :: []⟩ := rfl
  rw [hs, e1, h]
  simp [wideAfter, newCrawler, wideChild, List.range_eq_range']

theorem wide_page_run (c : Crawler) (pre post : List Task) (j : Nat)
    (hc : c.urlCount < maxURLsPerDomain) (hsem : c.semaphore < maxWorkers)
    (hv : widePage j ∉ c.visitedURLs) :
    run wideEnv (List.replicate 6 pre.length) ⟨c, pre ++ wideChild j Stage.entry :: post⟩ =
      ⟨{ visitedURLs := widePage j :: c.visitedURLs, semaphore := c.semaphore + 1,
         urlCount := c.urlCount + 1, fetched := c.fetched ++ [(widePage j, 1)],
         offered := c.offered },
        pre ++ wideChild j Stage.wait ::
          (post ++ [⟨wideRoot, 2, some pre.length, Stage.entry⟩])⟩ :=
  run_page wideEnv c pre post (widePage j) 1 (some 0) wideBody _ [wideRoot] (by decide) hc hsem
    hv (wide_fetch_page j) (wide_parse _) rfl wide_links_body
    (wide_ok _ (fun u hu => ⟨[], by rw [List.mem_singleton.1 hu, List.append_nil]⟩))

theorem wide_next (j : Nat) (hj : j < 199) :
    run wideEnv (List.replicate 6 (j + 1)) (wideAfter j) = wideAfter (j + 1) := by
  have h199 : 199 - j = (199 - (j + 1)) + 1 := by omega
  have hv : widePage j ∉ ((List.range j).map widePage).reverse ++ [wideRoot] := by
    simp only [List.mem_append, List.mem_reverse, List.mem_map, List.mem_range,
      List.mem_singleton, not_or]
    exact ⟨fun ⟨i, hi, he⟩ => by have := widePage_injective he; omega, widePage_ne_root j⟩
  have h := wide_page_run (wideAfter j).crawler
    (⟨wideRoot, 0, none, Stage.wait⟩ :: (List.range j).map (fun i => wideChild i Stage.wait))
    ((List.range' (j + 1) (199 - (j + 1))).map (fun i => wideChild i Stage.entry) ++
      (List.range j).map (fun i => wideGrandchild i Stage.entry)) j
    (by show j + 1 < 10000; omega) (by show j + 1 < 200; omega) hv
  have hlen : ((⟨wideRoot, 0, none, Stage.wait⟩ : Task) ::
      (List.range j).map (fun i => wideChild i Stage.wait)).length = j + 1 := by simp
  rw [hlen] at h
  have e1 : wideAfter j = ⟨(wideAfter j).crawler,
      (⟨wideRoot, 0, none, Stage.wait⟩ :: (List.range j).map (fun i => wideChild i Stage.wait)) ++
        wideChild j Stage.entry ::
          ((List.range' (j + 1) (199 - (j + 1))).map (fun i => wideChild i Stage.entry) ++
            (List.range j).map (fun i => wideGrandchild i Stage.entry))⟩ := by
    unfold wideAfter
    rw [h199, List.range'_succ]
    rfl
  rw [e1, h]
  simp [wideAfter, List.range_succ, wideGrandchild]

theorem wide_children (n : Nat) (hn : n ≤ 199) :
    run wideEnv ((List.range n).flatMap (fun i => List.replicate 6 (i + 1))) (wideAfter 0) =
      wideAfter n := by
  induction n with
  | zero => rfl
  | succ n ih =>
    rw [List.range_succ, List.flatMap_append, run_append, ih (by omega)]
    simpa using wide_next n (by omega)

theorem wide_entries : run wideEnv (List.range' 200 199) (wideAfter 199) = widePool := by
  have h := run_entries wideEnv ((List.range 199).map (fun i => wideGrandchild i Stage.entry))
    (wideAfter 199).crawler
    (⟨wideRoot, 0, none, Stage.wait⟩ :: (List.range 199).map (fun i => wideChild i Stage.wait))
    (by
      intro t ht
      obtain ⟨i, _, rfl⟩ := List.mem_map.1 ht
      exact ⟨rfl, by show 2 ≤ 5; omega⟩)
    (by simp [wideAfter, maxURLsPerDomain])
  simp only [List.length_cons, List.length_map, List.length_range] at h
  have e1 : wideAfter 199 = ⟨(wideAfter 199).crawler,
      (⟨wideRoot, 0, none, Stage.wait⟩ ::
        (List.range 199).map (fun i => wideChild i Stage.wait)) ++
        (List.range 199).map (fun i => wideGrandchild i Stage.entry)⟩ := by
    simp [wideAfter]
  rw [e1, h]
  simp [widePool, wideAfter, wideGrandchild, Function.comp_def]

theorem wide_reached : run wideEnv wideSchedule (startPool wideRoot) = widePool := by
  unfold wideSchedule
  rw [run_append, run_append, wide_start, wide_children 199 (Nat.le_refl _), wide_entries]

theorem wide_stuck : ∀ i, step wideEnv widePool i = widePool := by
  refine step_stuck wideEnv widePool.crawler widePool.tasks (Nat.le_refl 200) ?_
  intro i t hi
  have hroot : (wideChild 0 Stage.wait) ∈ widePool.tasks := by
    refine List.mem_cons_of_mem _ (List.mem_append_left _ ?_)
    exact List.mem_map.2 ⟨0, List.mem_range.2 (by omega), rfl⟩
  cases i with
  | zero =>
    have ht : t = ⟨wideRoot, 0, none, Stage.wait⟩ := by
      simpa [widePool] using hi.symm
    subst ht
    exact Or.inr ⟨rfl, childrenDone_false _ 0 _ hroot rfl (by simp [wideChild])⟩
  | succ k =>
    have hk : ((List.range 199).map (fun i => wideChild i Stage.wait) ++
        (List.range 199).map (fun i => wideGrandchild i Stage.acquire))[k]? = some t := by
      simpa [widePool] using hi
    by_cases hlt : k < 199
    · rw [List.getElem?_append_left (by simpa using hlt)] at hk
      have ht : t = wideChild k Stage.wait := by
        rw [List.getElem?_map, List.getElem?_range hlt] at hk
        simpa using hk.symm
      subst ht
      have hm : wideGrandchild k Stage.acquire ∈ widePool.tasks := by
        refine List.mem_cons_of_mem _ (List.mem_append_right _ ?_)
        exact List.mem_map.2 ⟨k, List.mem_range.2 hlt, rfl⟩
      exact Or.inr ⟨rfl, childrenDone_false _ (k + 1) _ hm rfl (by simp [wideGrandchild])⟩
    · rw [List.getElem?_append_right (by simpa using hlt)] at hk
      obtain ⟨i, _, rfl⟩ := List.mem_map.1 (List.mem_iff_getElem?.2 ⟨_, hk⟩)
      exact Or.inl rfl

/-! ## The crawl: no URL twice, the counter, the depth -/

/-- C3: a run of `crawlPage(root, 0)` on a fresh crawler returns, whatever
the pages and their links are, and its log of fetched URLs has no duplicates;
every fetched URL, also one whose fetch failed, is in the visited set; the
same holds after any steps of the goroutines in any order. -/
theorem crawlPage_fetches_once (e : Env) (root : Str) :
    (∀ k, ∃ c', crawlPage e (maxDepth + 2 + k) root 0 newCrawler = some c' ∧
      (c'.fetched.map Prod.fst).Nodup ∧ ∀ x ∈ c'.fetched, x.1 ∈ c'.visitedURLs) ∧
    (∀ schedule : List Nat,
      ((run e schedule (startPool root)).crawler.fetched.map Prod.fst).Nodup ∧
      ∀ x ∈ (run e schedule (startPool root)).crawler.fetched,
        x.1 ∈ (run e schedule (startPool root)).crawler.visitedURLs) := by
  constructor
  · intro k
    obtain ⟨c', h⟩ := crawl_returns e root
    have hk := crawlPage_fuel_add e _ k _ _ _ _ h
    obtain ⟨added, ha, hn, hm⟩ := (crawlPage_extends e _ _ _ _ _ hk).2.fetched_ext
    have ha' : c'.fetched = added := by simpa [newCrawler] using ha
    exact ⟨c', hk, ha' ▸ hn, fun x hx => (hm x (ha' ▸ hx)).2.1⟩
  · intro schedule
    have hinv := run_inv e schedule _ (startPool_inv root)
    refine ⟨(List.nodup_append.1 hinv.once).1, fun x hx => ?_⟩
    exact hinv.visited _ (List.mem_append_left _ (List.mem_map_of_mem _ hx))

theorem crawlPage_fetches_once_witness :
    ((run siteEnv [0, 0, 0, 0] (startPool (ascii "https://example.com/"))).crawler.fetched.map
      Prod.fst).Nodup ∧
    (ascii "https://example.com/", 0) ∈
      (run siteEnv [0, 0, 0, 0] (startPool (ascii "https://example.com/"))).crawler.fetched ∧
    (ascii "https://example.com/", 0).1 ∈
      (run siteEnv [0, 0, 0, 0] (startPool (ascii "https://example.com/"))).crawler.visitedURLs :=
  ⟨((crawlPage_fetches_once siteEnv (ascii "https://example.com/")).2 [0, 0, 0, 0]).1,
    by decide,
    ((crawlPage_fetches_once siteEnv (ascii "https://example.com/")).2 [0, 0, 0, 0]).2
      (ascii "https://example.com/", 0) (by decide)⟩

/-- C5: the invariant `size of the visited set <= urlCount <= 10000` holds
for a fresh crawler and is kept by `shouldCrawl` and by every call of
`crawlPage` that returns, the visited set growing by no more than `urlCount`;
`shouldCrawl` counts one URL below the cap and refuses at the cap; the run of
`crawlPage(root, 0)` returns with `urlCount` at most 10000, and the invariant
holds after any steps of the goroutines in any order. -/
theorem crawl_state_invariant :
    maxURLsPerDomain = 10000 ∧
    CrawlInv newCrawler ∧
    (∀ c, c.urlCount < maxURLsPerDomain →
      shouldCrawl c = (true, { c with urlCount := c.urlCount + 1 })) ∧
    (∀ c, c.urlCount ≥ maxURLsPerDomain → shouldCrawl c = (false, c)) ∧
    (∀ c, CrawlInv c → CrawlInv (shouldCrawl c).2) ∧
    (∀ (e : Env) fuel pageURL depth c c', CrawlInv c →
      crawlPage e fuel pageURL depth c = some c' →
      CrawlInv c' ∧
        c'.visitedURLs.length + c.urlCount ≤ c'.urlCount + c.visitedURLs.length) ∧
    (∀ (e : Env) root k, ∃ c', crawlPage e (maxDepth + 2 + k) root 0 newCrawler = some c' ∧
      CrawlInv c' ∧ c'.urlCount ≤ 10000) ∧
    (∀ (e : Env) root (schedule : List Nat),
      CrawlInv (run e schedule (startPool root)).crawler ∧
      (run e schedule (startPool root)).crawler.urlCount ≤ 10000) := by
  have hnew : CrawlInv newCrawler := by simp [CrawlInv, newCrawler]
  have hcall : ∀ (e : Env) fuel pageURL depth c c', CrawlInv c →
      crawlPage e fuel pageURL depth c = some c' →
      CrawlInv c' ∧
        c'.visitedURLs.length + c.urlCount ≤ c'.urlCount + c.visitedURLs.length := by
    intro e fuel pageURL depth c c' hinv h
    have hx := (crawlPage_extends e fuel pageURL depth c c' h).2
    have hp := hx.paid
    have hc := hx.count_cap hinv.2.2
    exact ⟨⟨hx.visited_nodup hinv.1, by have := hinv.2.1; omega, hc⟩, hp⟩
  refine ⟨rfl, hnew, ?_, ?_, ?_, hcall, ?_, ?_⟩
  · intro c hc
    have : ¬ c.urlCount ≥ maxURLsPerDomain := by omega
    simp [shouldCrawl, this]
  · intro c hc
    simp [shouldCrawl, hc]
  · intro c hinv
    unfold shouldCrawl
    by_cases hc : c.urlCount ≥ maxURLsPerDomain
    · simpa only [hc, if_true] using hinv
    · simp only [hc, if_false]
      exact ⟨hinv.1, Nat.le_succ_of_le hinv.2.1, by show c.urlCount + 1 ≤ _; omega⟩
  · intro e root k
    obtain ⟨c', h⟩ := crawl_returns e root
    have hk := crawlPage_fuel_add e _ k _ _ _ _ h
    have hi := (hcall e _ _ _ _ _ hnew hk).1
    exact ⟨c', hk, hi, hi.2.2⟩
  · intro e root schedule
    have hinv := run_inv e schedule _ (startPool_inv root)
    have hp := hinv.paid
    exact ⟨⟨hinv.nodup, by omega, hinv.cap⟩, hinv.cap⟩

theorem crawl_state_invariant_witness :
    (newCrawler.urlCount < maxURLsPerDomain ∧
      shouldCrawl newCrawler = (true, { newCrawler with urlCount := newCrawler.urlCount + 1 })) ∧
    (({ newCrawler with urlCount := 10000 } : Crawler).urlCount ≥ maxURLsPerDomain ∧
      shouldCrawl { newCrawler with urlCount := 10000 } =
        (false, { newCrawler with urlCount := 10000 })) ∧
    (CrawlInv newCrawler ∧ CrawlInv (shouldCrawl newCrawler).2) ∧
    (crawlPage siteEnv (maxDepth + 2) (ascii "https://example.com/") 0 newCrawler =
        some { visitedURLs := [ascii "https://example.com/"], semaphore := 0, urlCount := 1,
               fetched := [(ascii "https://example.com/", 0)], offered := [ascii "id"] } ∧
      CrawlInv { visitedURLs := [ascii "https://example.com/"], semaphore := 0, urlCount := 1,
                 fetched := [(ascii "https://example.com/", 0)], offered := [ascii "id"] }) :=
  ⟨⟨by decide, crawl_state_invariant.2.2.1 newCrawler (by decide)⟩,
    ⟨by decide, crawl_state_invariant.2.2.2.1 { newCrawler with urlCount := 10000 } (by decide)⟩,
    ⟨crawl_state_invariant.2.1,
      crawl_state_invariant.2.2.2.2.1 newCrawler crawl_state_invariant.2.1⟩,
    ⟨by decide,
      (crawl_state_invariant.2.2.2.2.2.1 siteEnv (maxDepth + 2) (ascii "https://example.com/") 0
        newCrawler _ crawl_state_invariant.2.1 (by decide)).1⟩⟩

/-- The depth cap: a call of `crawlPage` with a depth above 5 returns the
state as it was; every call that returns, in the run that executes each
goroutine where it is started, adds to the fetch log only entries of a depth
between its own and 5, each for a URL reached from its page by as many link
hops as the depth difference; after any steps of the goroutines in any order
every logged fetch has a depth of at most 5, and no more goroutines have been
started than the tree of calls of depth 0 to 6 below the root has nodes. -/
theorem crawlPage_depth_le (e : Env) :
    maxDepth = 5 ∧
    (∀ fuel pageURL depth c, depth > maxDepth →
      crawlPage e (fuel + 1) pageURL depth c = some c) ∧
    (∀ fuel pageURL depth c c', crawlPage e fuel pageURL depth c = some c' →
      ∃ added, c'.fetched = c.fetched ++ added ∧
        ∀ x ∈ added, depth ≤ x.2 ∧ x.2 ≤ maxDepth ∧ Hops e (x.2 - depth) pageURL x.1) ∧
    (∀ root (schedule : List Nat),
      (∀ x ∈ (run e schedule (startPool root)).crawler.fetched, x.2 ≤ maxDepth) ∧
      (run e schedule (startPool root)).tasks.length ≤ calls e (maxDepth + 1) root) := by
  have hcall : ∀ fuel pageURL depth c c', crawlPage e fuel pageURL depth c = some c' →
      ∃ added, c'.fetched = c.fetched ++ added ∧
        ∀ x ∈ added, depth ≤ x.2 ∧ x.2 ≤ maxDepth ∧ Hops e (x.2 - depth) pageURL x.1 := by
    intro fuel pageURL depth c c' h
    obtain ⟨added, ha, _, hm⟩ := (crawlPage_extends e fuel pageURL depth c c' h).2.fetched_ext
    exact ⟨added, ha, fun x hx => (hm x hx).2.2⟩
  have hpool : ∀ root (schedule : List Nat),
      (∀ x ∈ (run e schedule (startPool root)).crawler.fetched, x.2 ≤ maxDepth) ∧
      (run e schedule (startPool root)).tasks.length ≤ calls e (maxDepth + 1) root := by
    intro root schedule
    have h₁ := length_le_total e (run e schedule (startPool root)).tasks
    have h₂ := run_total e schedule _ (startPool_inv root)
    have h₃ : total e (startPool root).tasks = calls e (maxDepth + 1) root := by
      simp [total, startPool, weight]
    exact ⟨(run_inv e schedule _ (startPool_inv root)).depth_log, by omega⟩
  refine ⟨rfl, ?_, hcall, hpool⟩
  intro fuel pageURL depth c hd
  simp [crawlPage, hd]

/-- C6: the recursion of `crawlPage(root, 0)` does not terminate on every
link graph. On the site `example.com` whose home page links to 199 pages of
the site, each of which links back to the home page, the goroutines can take
their steps in an order (the home page up to `wg.Wait()`, then each of its 199
goroutines up to its own `wg.Wait()`, then the goroutines these have started
past `shouldCrawl`) after which the home page and its 199 goroutines hold all
200 permits of `semaphore` and wait for their goroutines, and these 199
goroutines wait for a permit; from there no goroutine can take a step and,
whatever order follows, the call for the home page stays at `wg.Wait()`: 200
pages have been fetched and `crawlPage(root, 0)` has not returned. -/
theorem crawlPage_blocks_on_wide_site :
    maxWorkers = 200 ∧
    wideEnv.fetchURL wideRoot = some wideHome ∧
    extractLinks (wideEnv.tokenize wideHome) = (List.range 199).map widePage ∧
    (∀ i, wideEnv.fetchURL (widePage i) = some wideBody ∧
      isSameDomain wideEnv (widePage i) = true) ∧
    extractLinks (wideEnv.tokenize wideBody) = [wideRoot] ∧
    run wideEnv wideSchedule (startPool wideRoot) = widePool ∧
    (∀ i, step wideEnv widePool i = widePool) ∧
    (∀ schedule : List Nat,
      run wideEnv (wideSchedule ++ schedule) (startPool wideRoot) = widePool) ∧
    widePool.crawler.semaphore = 200 ∧
    widePool.crawler.fetched.length = 200 ∧
    widePool.tasks.length = 399 ∧
    (∀ t ∈ widePool.tasks,
      (t.stage = Stage.wait ∧ t.depth ≤ 1) ∨ (t.stage = Stage.acquire ∧ t.depth = 2)) ∧
    (∀ schedule : List Nat,
      (run wideEnv (wideSchedule ++ schedule) (startPool wideRoot)).tasks.head? =
        some { pageURL := "https://example.com/".toList.map Char.toNat, depth := 0,
               parent := none, stage := Stage.wait }) := by
  have hall : ∀ schedule : List Nat,
      run wideEnv (wideSchedule ++ schedule) (startPool wideRoot) = widePool := by
    intro schedule
    rw [run_append, wide_reached, run_stuck wideEnv widePool wide_stuck]
  refine ⟨rfl, by simp [wideEnv], wide_links_home,
    fun i => ⟨wide_fetch_page i, wide_scope _⟩, wide_links_body, wide_reached, wide_stuck,
    hall, rfl, by simp [widePool], by simp [widePool], ?_, fun schedule => ?_⟩
  · intro t ht
    simp only [widePool, List.mem_cons, List.mem_append, List.mem_map, List.mem_range] at ht
    rcases ht with rfl | ⟨i, _, rfl⟩ | ⟨i, _, rfl⟩
    · exact Or.inl ⟨rfl, Nat.zero_le _⟩
    · exact Or.inl ⟨rfl, Nat.le_refl _⟩
    · exact Or.inr ⟨rfl, rfl⟩
  · rw [hall schedule]
    rfl

/-! ## The scope check and the links of a page -/

theorem isSameDomain_iff (e : Env) (urlStr : Str) :
    isSameDomain e urlStr = true ↔
      ∃ parsed, e.Parse urlStr = some parsed ∧ e.targetDomain <:+ parsed.Host := by
  unfold isSameDomain HasSuffix
  cases e.Parse urlStr with
  | none => simp
  | some parsed => simp [List.isSuffixOf_iff_suffix]

/-- C7 at the host `evilexample.com` for the target `example.com`: the URL
parses, its host is not the target and does not end with `.example.com`, and
`isSameDomain` returns true; in general `isSameDomain` is true exactly when the
URL parses and the target is a suffix of its host. -/
theorem isSameDomain_accepts_other_domain :
    siteEnv.targetDomain = ascii "example.com" ∧
    (siteEnv.Parse (ascii "http://evilexample.com/")).map URL.Host =
      some (ascii "evilexample.com") ∧
    ascii "evilexample.com" ≠ ascii "example.com" ∧
    ¬ (ascii "." ++ ascii "example.com") <:+ ascii "evilexample.com" ∧
    isSameDomain siteEnv (ascii "http://evilexample.com/") = true ∧
    (∀ (e : Env) (urlStr : Str), isSameDomain e urlStr = true ↔
      ∃ parsed, e.Parse urlStr = some parsed ∧ e.targetDomain <:+ parsed.Host) :=
  ⟨rfl, by decide, by decide, by decide, by decide, isSameDomain_iff⟩

/-- C10 at the home page of `example.com` with the one link `/about?id=1`:
the link parses with an empty host, `isSameDomain` rejects its string, and the
run fetches the home page only, although the page behind the link exists; the
name `id` of its query is offered to the queue. -/
theorem crawlPage_skips_relative_link :
    siteEnv.fetchURL (ascii "https://example.com/") = some sitePage ∧
    extractLinks (siteEnv.tokenize sitePage) = [ascii "/about?id=1"] ∧
    (siteEnv.Parse (ascii "/about?id=1")).map URL.String = some (ascii "/about?id=1") ∧
    (siteEnv.Parse (ascii "/about?id=1")).map URL.Host = some [] ∧
    isSameDomain siteEnv (ascii "/about?id=1") = false ∧
    siteEnv.fetchURL (ascii "https://example.com/about?id=1") = some (ascii "about") ∧
    isSameDomain siteEnv (ascii "https://example.com/about?id=1") = true ∧
    crawlPage siteEnv (maxDepth + 2) (ascii "https://example.com/") 0 newCrawler =
      some { visitedURLs := [ascii "https://example.com/"], semaphore := 0, urlCount := 1,
             fetched := [(ascii "https://example.com/", 0)], offered := [ascii "id"] } :=
  ⟨by decide, by decide, by decide, by decide, by decide, by decide, by decide, by decide⟩

end Recx
